import Mathlib

/-!
Verification of the DOM-to-Markdown conversion pipeline of the `page-to-markdown`
browser extension.  The definitions below are a shallow embedding of the pure string
helpers and DOM normalisers of `src/unnamed/part_001` (the canonical `convert` module).
JavaScript strings are modelled as `List Char`; DOM subtrees as an inductive tree type;
browser capabilities that the module treats as opaque (CSS selector matching beyond the
built-in list, `new URL` resolution, Readability) are abstracted as function parameters.
-/

/-- Characters matched by the JavaScript regex class `\s` and removed by
`String.prototype.trim`: ASCII whitespace, NBSP, BOM and the Unicode space separators. -/
def isJsWhitespace (c : Char) : Bool :=
  c == ' ' || c == '\t' || c == '\n' || c == '\r' || c == '\x0b' || c == '\x0c' ||
  c == ' ' || c == '﻿' || c == ' ' ||
  (0x2000 ≤ c.toNat && c.toNat ≤ 0x200A) ||
  c == ' ' || c == ' ' || c == ' ' || c == ' ' || c == '　'

/-- JavaScript `String.prototype.trimStart`. -/
def jsTrimStart (l : List Char) : List Char := l.dropWhile isJsWhitespace

/-- JavaScript `String.prototype.trimEnd`. -/
def jsTrimEnd (l : List Char) : List Char := (l.reverse.dropWhile isJsWhitespace).reverse

/-- JavaScript `String.prototype.trim`. -/
def jsTrim (l : List Char) : List Char := jsTrimEnd (jsTrimStart l)

/-- Characters matched by the JavaScript regex class `\w` (`[A-Za-z0-9_]`). -/
def isWordChar (c : Char) : Bool :=
  ('a' ≤ c && c ≤ 'z') || ('A' ≤ c && c ≤ 'Z') || ('0' ≤ c && c ≤ '9') || c == '_'

/-- Characters matched by the slug-separator class `[\s_-]` of `slugify`. -/
def isSlugSep (c : Char) : Bool := isJsWhitespace c || c == '_' || c == '-'

/-- JavaScript `String.prototype.toLowerCase`, restricted to the ASCII range.  The full
Unicode lowercase map never produces an ASCII uppercase letter, an underscore or a
whitespace character, which is the only part of its behaviour `slugify` depends on:
every non-ASCII character is removed by the `[^\w\s-]` filter that follows. -/
def jsToLower (c : Char) : Char :=
  if 'A' ≤ c && c ≤ 'Z' then Char.ofNat (c.toNat + 32) else c

/-- The `.replace(/[^\w\s-]/g, '')` step of `slugify`. -/
def keepWordChars (l : List Char) : List Char :=
  l.filter (fun c => isWordChar c || isJsWhitespace c || c == '-')

/-- Worker for the `.replace(/[\s_-]+/g, '-')` step: the flag records whether the previous
input character belonged to the separator run currently being replaced. -/
def collapseSepsAux : Bool → List Char → List Char
  | _, [] => []
  | true, c :: t =>
    if isSlugSep c then collapseSepsAux true t else c :: collapseSepsAux false t
  | false, c :: t =>
    if isSlugSep c then '-' :: collapseSepsAux true t else c :: collapseSepsAux false t

/-- The `.replace(/[\s_-]+/g, '-')` step of `slugify`: every maximal run of whitespace,
underscores and hyphens becomes a single hyphen. -/
def collapseSeps (l : List Char) : List Char := collapseSepsAux false l

/-- The `.replace(/^-+|-+$/g, '')` step of `slugify`: drop the leading and the trailing
hyphen run. -/
def stripEdgeHyphens (l : List Char) : List Char :=
  ((l.dropWhile (· == '-')).reverse.dropWhile (· == '-')).reverse

/-- `slugify` from the content script: lowercase, trim, strip non-word characters,
collapse separator runs to hyphens, strip edge hyphens. -/
def slugify (s : List Char) : List Char :=
  stripEdgeHyphens (collapseSeps (keepWordChars (jsTrim (s.map jsToLower))))

/-- Characters allowed in a well-formed slug. -/
def isSlugChar (c : Char) : Bool := ('a' ≤ c && c ≤ 'z') || ('0' ≤ c && c ≤ '9') || c == '-'

/-- The relation asserting that two adjacent slug characters are not both hyphens. -/
def NoAdjHyphens (a b : Char) : Prop := ¬(a = '-' ∧ b = '-')

/-- JavaScript `split(/\r?\n/)`: split on LF or CRLF; a lone CR is not a separator. -/
def splitLinesCRLF : List Char → List (List Char)
  | [] => [[]]
  | c :: t =>
    if c = '\n' then [] :: splitLinesCRLF t
    else if c = '\r' then
      match t with
      | '\n' :: u => [] :: splitLinesCRLF u
      | [] => [[c]]
      | b :: u => (splitLinesCRLF (b :: u)).modifyHead (c :: ·)
    else (splitLinesCRLF t).modifyHead (c :: ·)

/-- JavaScript `Array.prototype.join` with a single-character separator. -/
def joinWith (c : Char) : List (List Char) → List Char
  | [] => []
  | [l] => l
  | l :: ls => l ++ c :: joinWith c ls

/-- Result of `stripFrontMatter`: the extracted front-matter block (or `null`) and the
remaining content. -/
structure StripResult where
  frontMatter : Option (List Char)
  content : List Char
deriving DecidableEq

/-- `stripFrontMatter` from the content script: left-trim, look for an opening `---`,
scan for the first subsequent line trimming to `---`, and split there; when the opener is
missing or unterminated, return no front matter and the whole input trimmed. -/
def stripFrontMatter (markdown : List Char) : StripResult :=
  if ['-', '-', '-'].isPrefixOf (jsTrimStart markdown) then
    match ((splitLinesCRLF (jsTrimStart markdown)).drop 1).findIdx?
        (fun l => jsTrim l == ['-', '-', '-']) with
    | none => ⟨none, jsTrim markdown⟩
    | some j =>
      ⟨some (joinWith '\n' ((splitLinesCRLF (jsTrimStart markdown)).take (j + 2))),
        jsTrim (joinWith '\n' ((splitLinesCRLF (jsTrimStart markdown)).drop (j + 2)))⟩
  else ⟨none, jsTrim markdown⟩

/-- JavaScript `String.prototype.replace` with a global single-character pattern and a
fixed replacement string. -/
def replaceChar (t : Char) (r : List Char) : List Char → List Char
  | [] => []
  | c :: cs => (if c = t then r else [c]) ++ replaceChar t r cs

/-- `escapeYaml` from the content script: escape backslashes first, then double quotes,
newlines, carriage returns and tabs, for embedding in a double-quoted YAML scalar. -/
def escapeYaml (v : List Char) : List Char :=
  replaceChar '\t' ['\\', 't']
    (replaceChar '\r' ['\\', 'r']
      (replaceChar '\n' ['\\', 'n']
        (replaceChar '"' ['\\', '"']
          (replaceChar '\\' ['\\', '\\'] v))))

/-- Metadata consumed by `buildFrontMatter`; all fields are plain strings. -/
structure PageMetadata where
  title : List Char
  source : List Char
  author : List Char
  description : List Char
  retrieved : List Char

/-- The nine physical lines of the front-matter template of `buildFrontMatter`. -/
def frontMatterLines (m : PageMetadata) : List (List Char) :=
  [['-', '-', '-'],
    "title: \"".data ++ escapeYaml m.title ++ ['"'],
    "source: \"".data ++ m.source ++ ['"'],
    "retrieved: \"".data ++ m.retrieved ++ ['"'],
    "author: \"".data ++ escapeYaml m.author ++ ['"'],
    "description: \"".data ++ escapeYaml m.description ++ ['"'],
    "tags: []".data,
    "toc: true".data,
    ['-', '-', '-']]

/-- `buildFrontMatter` from the content script: the template literal is its nine lines
joined by newlines. -/
def buildFrontMatter (m : PageMetadata) : List Char :=
  joinWith '\n' (frontMatterLines m)

/-- Absence of any CRLF pair in a string (no `\r` immediately followed by `\n`). -/
def NoCRLF (l : List Char) : Prop :=
  List.Chain' (fun a b => ¬(a = '\r' ∧ b = '\n')) l

/-- JavaScript `split(c)` with a literal single-character separator. -/
def splitOnChar (sep : Char) : List Char → List (List Char)
  | [] => [[]]
  | c :: t =>
    if c = sep then [] :: splitOnChar sep t else (splitOnChar sep t).modifyHead (c :: ·)

/-- Leftmost match of the descriptor regex `([\d.]+)(w|x)`: the accumulator carries the
run of digits and dots read so far.  A shorter run than the maximal one is never
followed by `w`/`x` (the next character is a digit or dot), so the leftmost match is the
leftmost maximal `[\d.]+` run immediately followed by `w` or `x`. -/
def findNumUnit (acc : List Char) : List Char → Option (List Char × Char)
  | [] => none
  | c :: t =>
    if ('0' ≤ c && c ≤ '9') || c = '.' then findNumUnit (acc ++ [c]) t
    else if (c = 'w' ∨ c = 'x') ∧ acc ≠ [] then some (acc, c)
    else findNumUnit [] t

/-- Decimal digit test. -/
def isDigit10 (c : Char) : Bool := '0' ≤ c && c ≤ '9'

/-- Numeric value of a digit string. -/
def digitsVal (ds : List Char) : Nat := ds.foldl (fun a c => a * 10 + (c.toNat - 48)) 0

/-- JavaScript `parseFloat` on a string of digits and dots, represented exactly as a
scaled integer: `some (v, k)` denotes the rational `v / 10 ^ k`; `none` is `NaN`.
Parsing stops at a second dot, exactly as `parseFloat` does. -/
def parseDecimal (run : List Char) : Option (Int × Nat) :=
  match run.dropWhile isDigit10 with
  | '.' :: rest2 =>
    if run.takeWhile isDigit10 = [] ∧ rest2.takeWhile isDigit10 = [] then none
    else
      some ((digitsVal (run.takeWhile isDigit10 ++ rest2.takeWhile isDigit10) : Int),
        (rest2.takeWhile isDigit10).length)
  | _ =>
    if run.takeWhile isDigit10 = [] then none
    else some ((digitsVal (run.takeWhile isDigit10) : Int), 0)

/-- A parsed srcset candidate: URL part and score (`none` models a NaN score). -/
structure Candidate where
  url : List Char
  score : Option (Int × Nat)

/-- Parse one trimmed srcset entry: `split(/\s+/, 2)` into URL and descriptor, then
score 1 with no descriptor or no regex match, width for a `w` descriptor, and
100 × density for an `x` descriptor. -/
def parseCandidate (entry : List Char) : Candidate :=
  let urlPart := entry.takeWhile (fun c => !isJsWhitespace c)
  let after := (entry.dropWhile (fun c => !isJsWhitespace c)).dropWhile isJsWhitespace
  let descriptor := after.takeWhile (fun c => !isJsWhitespace c)
  let score : Option (Int × Nat) :=
    if descriptor = [] then some (1, 0)
    else
      match findNumUnit [] descriptor with
      | none => some (1, 0)
      | some (run, unit) =>
        match parseDecimal run with
        | none => none
        | some (v, k) => if unit = 'w' then some (v, k) else some (v * 100, k)
  ⟨urlPart, score⟩

/-- The comparator `(a, b) => b.score - a.score` used by the candidate sort, as the
predicate "a sorts no later than b": true when a's score is at least b's, and true on a
NaN score, where the subtraction yields NaN and the engine keeps the original order. -/
def scoreGE (a b : Option (Int × Nat)) : Bool :=
  match a, b with
  | some (v1, k1), some (v2, k2) => decide (v2 * 10 ^ k1 ≤ v1 * 10 ^ k2)
  | _, _ => true

/-- Stable insertion used to model `Array.prototype.sort` (stable, descending score):
the element being inserted precedes the existing elements it ties with never — it came
earlier in the original array, so it is placed before the first element it is not
smaller than. -/
def insertCand (x : Candidate) : List Candidate → List Candidate
  | [] => [x]
  | y :: ys => if scoreGE x.score y.score then x :: y :: ys else y :: insertCand x ys

/-- Stable descending sort of the candidates (`candidates.sort((a, b) => b.score - a.score)`). -/
def sortCandidates : List Candidate → List Candidate
  | [] => []
  | x :: xs => insertCand x (sortCandidates xs)

/-- The candidate list built by `chooseBestSrcFromSrcset`: split on commas, trim,
drop empty entries, parse, drop candidates without a URL. -/
def srcsetCandidates (s : List Char) : List Candidate :=
  (((splitOnChar ',' s).map jsTrim).filter (· ≠ [])).map parseCandidate
    |>.filter (fun c => c.url ≠ [])

/-- `chooseBestSrcFromSrcset` from the content script: null when no candidate has a
URL, otherwise the URL of the first candidate after the stable descending sort. -/
def chooseBestSrcFromSrcset (s : List Char) : Option (List Char) :=
  match sortCandidates (srcsetCandidates s) with
  | [] => none
  | c :: _ => if c.url = [] then none else some c.url

/-- Exact rational comparison of two scores (`none`, a NaN, compares trivially). -/
def scoreLE (a b : Option (Int × Nat)) : Prop :=
  match a, b with
  | some (v1, k1), some (v2, k2) => v1 * 10 ^ k2 ≤ v2 * 10 ^ k1
  | _, _ => True

/-- Strict exact rational comparison of two scores. -/
def scoreLT (a b : Option (Int × Nat)) : Prop :=
  match a, b with
  | some (v1, k1), some (v2, k2) => v1 * 10 ^ k2 < v2 * 10 ^ k1
  | _, _ => False

/-- Worker for the `.replace(/\n{3,}/g, '\n\n')` step: `k` counts the newline run read
so far; a finished run is emitted as `min k 2` newlines, exactly the effect of the
greedy global regex on each maximal run. -/
def collapseNLAux (k : Nat) : List Char → List Char
  | [] => List.replicate (min k 2) '\n'
  | c :: t =>
    if c = '\n' then collapseNLAux (k + 1) t
    else List.replicate (min k 2) '\n' ++ c :: collapseNLAux 0 t

/-- The `.replace(/\n{3,}/g, '\n\n')` step of `postProcessMarkdown`. -/
def collapseNL (l : List Char) : List Char := collapseNLAux 0 l

/-- The `.replace(/[“”]/g, '"')` smart-double-quote map. -/
def q2Map (c : Char) : Char := if c = '“' ∨ c = '”' then '"' else c

/-- The `.replace(/[‘’]/g, "'")` smart-single-quote map. -/
def q1Map (c : Char) : Char := if c = '‘' ∨ c = '’' then '\'' else c

/-- The `.replace(/ /g, ' ')` non-breaking-space map. -/
def nbspMap (c : Char) : Char := if c = ' ' then ' ' else c

/-- The `.split('\n').map(line => line.trimEnd()).join('\n')` step. -/
def trimEndLines (l : List Char) : List Char :=
  joinWith '\n' ((splitOnChar '\n' l).map jsTrimEnd)

/-- `postProcessMarkdown` from the content script: collapse 3+ newline runs, normalise
smart quotes and non-breaking spaces, right-trim every line, trim the whole output. -/
def postProcessMarkdown (l : List Char) : List Char :=
  jsTrim (trimEndLines ((((collapseNL l).map q2Map).map q1Map).map nbspMap))

/-- Line-padding character: whitespace other than the line separator itself. -/
def isPad (c : Char) : Bool := isJsWhitespace c && !(c == '\n')

/-- Adjacent-pair constraint of a string whose lines carry no trailing whitespace. -/
def PadRel (a b : Char) : Prop := b = '\n' → isPad a = false

/-- A string is pad-free when no padding character sits immediately before a newline or
at the end: exactly the strings fixed by the per-line right-trim. -/
def PadFreeP (l : List Char) : Prop :=
  List.Chain' PadRel l ∧ ∀ c, l.getLast? = some c → isPad c = false

/-- Invariant satisfied by every `postProcessMarkdown` output: quote and space
normalisation are exhausted, lines carry no trailing padding, and the whole string is
trimmed. -/
def PPInv (y : List Char) : Prop :=
  (∀ c ∈ y, q2Map c = c ∧ q1Map c = c ∧ nbspMap c = c) ∧ PadFreeP y ∧ jsTrim y = y

/-- Decimal rendering of a natural number with explicit fuel (the fuel is sufficient
whenever it exceeds the number of digits; `natChars` supplies `n + 1`).  Models the
JavaScript number-to-string conversion for the small integers used as slug counters and
footnote labels. -/
def natCharsAux : Nat → Nat → List Char
  | 0, _ => []
  | fuel + 1, n =>
    if n < 10 then [Char.ofNat (48 + n)]
    else natCharsAux fuel (n / 10) ++ [Char.ofNat (48 + n % 10)]

/-- Decimal rendering of a natural number. -/
def natChars (n : Nat) : List Char := natCharsAux (n + 1) n

/-- A DOM element tree: text nodes and element nodes with a tag, an attribute list and
children.  Attribute values are JS strings (`List Char`); tag and attribute names only
ever face equality tests, so they stay `String`. -/
inductive DNode where
  | text (s : List Char) : DNode
  | elem (tag : String) (attrs : List (String × List Char)) (children : List DNode) : DNode

/-- `el.getAttribute(name)`: first attribute with the given name, if any. -/
def getAttr (attrs : List (String × List Char)) (name : String) : Option (List Char) :=
  (attrs.find? (fun p => p.1 == name)).map (fun p => p.2)

mutual

/-- `node.textContent`: concatenation of all descendant text, in document order. -/
def nodeText : DNode → List Char
  | .text s => s
  | .elem _ _ cs => nodesText cs

def nodesText : List DNode → List Char
  | [] => []
  | n :: ns => nodeText n ++ nodesText ns

end

/-- Heading level extracted from the tag name (`parseInt(heading.tagName[1], 10)`); `none`
for non-heading tags, so that `querySelectorAll` filtering on `h1,…,h6` is a `match`. -/
def headingLevel (t : String) : Option Nat :=
  if t == "h1" then some 1
  else if t == "h2" then some 2
  else if t == "h3" then some 3
  else if t == "h4" then some 4
  else if t == "h5" then some 5
  else if t == "h6" then some 6
  else none

/-- The data `generateTOC` reads from one heading element: its level, its `id` property
(`""` when the attribute is absent) and its `textContent`. -/
structure Heading where
  level : Nat
  id : List Char
  text : List Char
deriving DecidableEq

mutual

/-- `el.querySelectorAll('h1,h2,h3,h4,h5,h6')`: all heading descendants in document
order (preorder), with the fields `generateTOC` reads. -/
def nodeHeadings : DNode → List Heading
  | .text _ => []
  | .elem t attrs cs =>
    match headingLevel t with
    | some lvl => ⟨lvl, (getAttr attrs "id").getD [], nodesText cs⟩ :: nodesHeadings cs
    | none => nodesHeadings cs

def nodesHeadings : List DNode → List Heading
  | [] => []
  | n :: ns => nodeHeadings n ++ nodesHeadings ns

end

/-- Observational model of the JS `Map<string, number>` used for `usedSlugs`:
`set` conses, `get` finds the most recent entry. -/
def mapSet (m : List (List Char × Nat)) (k : List Char) (v : Nat) : List (List Char × Nat) :=
  (k, v) :: m

def mapLookup (m : List (List Char × Nat)) (k : List Char) : Option Nat :=
  (m.find? (fun p => p.1 == k)).map (fun p => p.2)

/-- `heading.id || slugify(heading.textContent || '')`. -/
def tocBase (h : Heading) : List Char :=
  if h.id = [] then slugify h.text else h.id

/-- The slug emitted for a base given the map entry: on a repeat (`count !== undefined`)
the suffix `-(count+1)` is appended. -/
def tocEmit (b : List Char) : Option Nat → List Char
  | some count => b ++ '-' :: natChars (count + 1)
  | none => b

/-- The value stored back into `usedSlugs` for this base. -/
def nextCount : Option Nat → Nat
  | some count => count + 1
  | none => 0

/-- One TOC line: `${'  '.repeat(depth)}- [${heading.textContent?.trim()}](#${slug})`
with `depth = level - 1`. -/
def mkEntry (lvl : Nat) (txt slug : List Char) : List Char :=
  List.replicate (2 * (lvl - 1)) ' ' ++ ('-' :: ' ' :: '[' :: jsTrim txt) ++
    (']' :: '(' :: '#' :: slug) ++ [')']

/-- The `.map` body of `generateTOC`, threading `usedSlugs`; for each heading it yields
`(entry, slug, final id)` where the final id is the heading's `id` after the
`if (!heading.id) heading.id = slug` mutation. -/
def generateTOCAux (m : List (List Char × Nat)) :
    List Heading → List (List Char × List Char × List Char)
  | [] => []
  | h :: rest =>
    (mkEntry h.level h.text (tocEmit (tocBase h) (mapLookup m (tocBase h))),
     tocEmit (tocBase h) (mapLookup m (tocBase h)),
     if h.id = [] then tocEmit (tocBase h) (mapLookup m (tocBase h)) else h.id) ::
    generateTOCAux (mapSet m (tocBase h) (nextCount (mapLookup m (tocBase h)))) rest

/-- `generateTOC`: the joined TOC lines for all headings of `el`. -/
def generateTOC (el : DNode) : List Char :=
  joinWith '\n' ((generateTOCAux [] (nodeHeadings el)).map (fun t => t.1))

/-- Specification form of one emitted slug: base `b` with occurrence count `c` among
earlier bases; `c = 0` emits the base itself, otherwise the `-c` suffix. -/
def slugEmit (b : List Char) (c : Nat) : List Char :=
  if c = 0 then b else b ++ '-' :: natChars c

/-- Specification recursion over `(base, original id)` pairs, carrying the list of
earlier bases; yields `(slug, final id)` per heading. -/
def specOut (pref : List (List Char)) : List (List Char × List Char) → List (List Char × List Char)
  | [] => []
  | (b, i) :: rest =>
    (slugEmit b (pref.count b), if i = [] then slugEmit b (pref.count b) else i) ::
    specOut (pref ++ [b]) rest

/-- Invariant tying the `usedSlugs` map to the multiset of bases already processed. -/
def TocInv (m : List (List Char × Nat)) (pref : List (List Char)) : Prop :=
  ∀ b, mapLookup m b = if pref.count b = 0 then none else some (pref.count b - 1)

/-- Hypothesis H: no base equals another base with a `-n` suffix attached. -/
def CrossFree (l : List (List Char × List Char)) : Prop :=
  ∀ p ∈ l, ∀ q ∈ l, ∀ k, 1 ≤ k → p.1 ≠ q.1 ++ '-' :: natChars k

/-- Three headings "a", "a", "a 1": bases "a", "a", "a-1"; the second heading's
deduplicated slug "a-1" collides with the third heading's base. -/
def tocCexEl : DNode :=
  .elem "div" [] [.elem "h2" [] [.text "a".data], .elem "h2" [] [.text "a".data],
    .elem "h2" [] [.text "a 1".data]]

/-- Two headings with distinct, equal-length bases "aa" and "bb". -/
def tocWitnessEl : DNode :=
  .elem "div" [] [.elem "h1" [] [.text "Aa".data], .elem "h2" [] [.text "Bb".data]]

/-- `.replace(/^\[|\]$/g, '')`: removes one leading `[` and one trailing `]`. -/
def stripBrackets (s : List Char) : List Char :=
  let s1 := match s with
    | '[' :: t => t
    | _ => s
  if s1.getLast? = some ']' then s1.dropLast else s1

/-- The `while (usedLabels.has(String(counter))) counter += 1` loop, fueled; the fuel
`used.length + 1` always suffices (`exists_free_counter`). -/
def findUnusedAux : Nat → Nat → List (List Char) → Nat
  | 0, c, _ => c
  | fuel + 1, c, used => if natChars c ∈ used then findUnusedAux fuel (c + 1) used else c

/-- `let counter = usedLabels.size + 1; while (usedLabels.has(String(counter))) …`.
The set of used labels is modeled as a list that only ever receives fresh elements, so
its length is the set's size. -/
def findUnused (used : List (List Char)) : Nat :=
  findUnusedAux (used.length + 1) (used.length + 1) used

/-- State of one `convertFootnotes` run: insertion-ordered `idToLabel` and the
`usedLabels` set. -/
structure FnState where
  idToLabel : List (List Char × List Char)
  used : List (List Char)

def fnLookup (m : List (List Char × List Char)) (k : List Char) : Option (List Char) :=
  (m.find? (fun p => p.1 == k)).map (fun p => p.2)

/-- `registerFootnote(targetId, anchor)` restricted to its label bookkeeping (the
definition-HTML harvesting does not touch `idToLabel`/`usedLabels`). -/
def registerFootnote (st : FnState) (targetId rawText : List Char) : FnState :=
  if targetId = [] then st
  else match fnLookup st.idToLabel targetId with
    | some _ => st
    | none =>
      let raw := stripBrackets (jsTrim rawText)
      let cand := if raw = [] ∨ raw ∈ st.used then natChars (findUnused st.used) else raw
      { idToLabel := st.idToLabel ++ [(targetId, cand)], used := cand :: st.used }

/-- The sequence of `registerFootnote` calls of one run (sup pass then anchor pass),
as `(targetId, anchor text)` pairs, folded from the empty state. -/
def convertFootnotesFold (refs : List (List Char × List Char)) : FnState :=
  refs.foldl (fun st r => registerFootnote st r.1 r.2) ⟨[], []⟩

/-- Labels of the returned `FootnoteDefinition[]`: the `idToLabel` entries whose target
captured definition HTML (`idToHtml` membership abstracted as a predicate). -/
def footnoteLabels (refs : List (List Char × List Char)) (hasHtml : List Char → Bool) :
    List (List Char) :=
  (((convertFootnotesFold refs).idToLabel).filter (fun p => hasHtml p.1)).map (fun p => p.2)

/-- Run invariant: assigned labels are pairwise distinct and all recorded as used. -/
def FnInv (st : FnState) : Prop :=
  (st.idToLabel.map (fun p => p.2)).Nodup ∧
    ∀ v ∈ st.idToLabel.map (fun p => p.2), v ∈ st.used

/-- `parseInt(s, 10)`: skip leading whitespace, optional sign, then the longest digit
prefix; `none` is `NaN` (no digits). -/
def parseIntDigits (r : List Char) : Option Nat :=
  let ds := r.takeWhile isDigit10
  if ds = [] then none else some (digitsVal ds)

def parseIntJS (s : List Char) : Option Int :=
  match jsTrimStart s with
  | [] => none
  | c :: r =>
    if c = '-' then (parseIntDigits r).map (fun n => -(n : Int))
    else if c = '+' then (parseIntDigits r).map (fun n => (n : Int))
    else (parseIntDigits (c :: r)).map (fun n => (n : Int))

/-- JS `>`/`<` against a number that may be `NaN`: any comparison with `NaN` is false. -/
def numGT : Option Int → Int → Bool
  | none, _ => false
  | some v, b => decide (b < v)

def numLT : Option Int → Int → Bool
  | none, _ => false
  | some v, b => decide (v < b)

/-- `w > 0 && w < 32 && h > 0 && h < 32` with
`w = parseInt(img.getAttribute('width') || '0', 10)` and likewise `h`. -/
def imgSmall (attrs : List (String × List Char)) : Bool :=
  let w := parseIntJS ((getAttr attrs "width").getD "0".data)
  let h := parseIntJS ((getAttr attrs "height").getD "0".data)
  numGT w 0 && numLT w 32 && numGT h 0 && numLT h 32

/-- `element.setAttribute(name, value)` (also the attribute reflection of `img.src = v`):
replace the first attribute of that name in place, else append. -/
def setAttr : List (String × List Char) → String → List Char → List (String × List Char)
  | [], m, v => [(m, v)]
  | p :: rest, m, v => if p.1 == m then (p.1, v) :: rest else p :: setAttr rest m v

/-- `element.removeAttribute(name)`. -/
def removeAttr (attrs : List (String × List Char)) (m : String) : List (String × List Char) :=
  attrs.filter (fun p => !(p.1 == m))

def hasAttr (attrs : List (String × List Char)) (m : String) : Bool :=
  (getAttr attrs m).isSome

/-- The `attrCandidates` list of `resolveLazyImage`. -/
def lazyAttrCandidates : List String :=
  ["data-src", "data-original", "data-lazy-src", "data-src-large", "data-image-src"]

/-- First candidate attribute whose value is nonempty and does not start with `data:`;
returns the attribute name (to remove) and its value. -/
def findLazyAttr : List String → List (String × List Char) → Option (String × List Char)
  | [], _ => none
  | a :: rest, attrs =>
    match getAttr attrs a with
    | some v =>
      if v ≠ [] ∧ ¬("data:".data.isPrefixOf v = true) then some (a, v)
      else findLazyAttr rest attrs
    | none => findLazyAttr rest attrs

def srcsetCandidateAttrs : List String :=
  ["data-srcset", "data-lazy-srcset", "data-original-srcset", "srcset"]

/-- First nonempty srcset-like attribute for which `chooseBestSrcFromSrcset` yields a
URL. -/
def firstSrcsetBest : List String → List (String × List Char) → Option (List Char)
  | [], _ => none
  | a :: rest, attrs =>
    match getAttr attrs a with
    | some v =>
      if v ≠ [] then
        match chooseBestSrcFromSrcset v with
        | some b => some b
        | none => firstSrcsetBest rest attrs
      else firstSrcsetBest rest attrs
    | none => firstSrcsetBest rest attrs

mutual

/-- `picture.querySelectorAll('source[srcset], source[data-srcset], source[data-src]')`:
attribute lists of matching `source` descendants, in document order. -/
def collectSources : DNode → List (List (String × List Char))
  | .text _ => []
  | .elem t attrs cs =>
    (if t == "source" &&
        (hasAttr attrs "srcset" || hasAttr attrs "data-srcset" || hasAttr attrs "data-src")
      then [attrs] else []) ++ collectSourcesList cs

def collectSourcesList : List DNode → List (List (String × List Char))
  | [] => []
  | n :: ns => collectSources n ++ collectSourcesList ns

end

/-- `a || b` over attribute reads: `b` when `a` is absent or empty. -/
def attrOr (a b : Option (List Char)) : Option (List Char) :=
  match a with
  | some v => if v = [] then b else some v
  | none => b

/-- The picture-source fallback loop of `resolveLazyImage`. -/
def pictureBest : List (List (String × List Char)) → Option (List Char)
  | [] => none
  | sa :: rest =>
    match attrOr (getAttr sa "data-srcset") (attrOr (getAttr sa "srcset") (getAttr sa "data-src")) with
    | some v =>
      if v = [] then pictureBest rest
      else
        match chooseBestSrcFromSrcset v with
        | some b => some b
        | none => pictureBest rest
    | none => pictureBest rest

/-- `resolveLazyImage(img)` as a transformation of the image's attribute list.  The
parent's tag and children supply the `<picture>` fallback context; `res` abstracts
`new URL(s, location.href).href` (`none` = the constructor threw, in which case the raw
value is assigned). -/
def resolveLazyImage (res : List Char → Option (List Char)) (parentTag : String)
    (parentChildren : List DNode) (attrs : List (String × List Char)) :
    List (String × List Char) :=
  let step1 := match findLazyAttr lazyAttrCandidates attrs with
    | some (a, v) => (some v, removeAttr attrs a)
    | none => (none, attrs)
  let attrs1 := step1.2
  let chosen2 := match step1.1 with
    | some v => some v
    | none => firstSrcsetBest srcsetCandidateAttrs attrs1
  let chosen3 := match chosen2 with
    | some v => some v
    | none =>
      if parentTag == "picture" then pictureBest (collectSourcesList parentChildren)
      else none
  match chosen3 with
  | some v => setAttr attrs1 "src" (match res v with | some a => a | none => v)
  | none => attrs1

mutual

/-- The image pass of `cleanContent` (its `el.querySelectorAll('img')` loop) as a
structural tree transformation: each `img` first has its lazy sources resolved, is then
dropped when `imgSmall`, and otherwise has its `src` resolved to absolute form.  The
loop runs over a pre-taken snapshot and every step only touches the image itself, so
the snapshot loop and the structural recursion agree. -/
def imagePassNode (res : List Char → Option (List Char)) (parentTag : String)
    (siblings : List DNode) : DNode → List DNode
  | .text s => [.text s]
  | .elem t attrs cs =>
    if t == "img" then
      let attrs2 := resolveLazyImage res parentTag siblings attrs
      if imgSmall attrs2 then []
      else
        [.elem t
          (match getAttr attrs2 "src" with
            | some s => setAttr attrs2 "src" (match res s with | some a => a | none => s)
            | none => attrs2)
          (imagePassList res t cs cs)]
    else [.elem t attrs (imagePassList res t cs cs)]

def imagePassList (res : List Char → Option (List Char)) (parentTag : String)
    (siblings : List DNode) : List DNode → List DNode
  | [] => []
  | n :: ns => imagePassNode res parentTag siblings n ++ imagePassList res parentTag siblings ns

end

/-- The `mediaTags` set of cleanContent's hidden/empty pass. -/
def mediaTag (t : String) : Bool :=
  t == "img" || t == "video" || t == "audio" || t == "picture" || t == "source"

mutual

/-- `element.querySelectorAll('img, video, audio').length !== 0` over a node. -/
def anyMedia : DNode → Bool
  | .text _ => false
  | .elem t _ cs => (t == "img" || t == "video" || t == "audio") || anyMediaList cs

def anyMediaList : List DNode → Bool
  | [] => false
  | n :: ns => anyMedia n || anyMediaList ns

end

/-- One `name: value` declaration of an inline style attribute. -/
def parseDecl (d : List Char) : Option (List Char × List Char) :=
  match d.findIdx? (fun c => c = ':') with
  | none => none
  | some i => some (jsTrim (d.take i), jsTrim (d.drop (i + 1)))

/-- `element.style.getPropertyValue(prop)` for inline styles: the last declaration of
`prop` in the `style` attribute wins. -/
def styleGet (attrs : List (String × List Char)) (prop : List Char) : Option (List Char) :=
  match getAttr attrs "style" with
  | none => none
  | some s =>
    ((splitOnChar ';' s).filterMap parseDecl).foldl
      (fun acc p => if p.1 = prop then some p.2 else acc) none

/-- `element.hidden || aria-hidden === 'true' || style.display === 'none' ||
style.visibility === 'hidden'`. -/
def isHidden (attrs : List (String × List Char)) : Bool :=
  hasAttr attrs "hidden" ||
  (getAttr attrs "aria-hidden" == some "true".data) ||
  (styleGet attrs "display".data == some "none".data) ||
  (styleGet attrs "visibility".data == some "hidden".data)

/-- `!element.textContent?.trim() && element.querySelectorAll('img, video, audio').length
=== 0` on an element's children. -/
def isEmptyElem (cs : List DNode) : Bool :=
  (jsTrim (nodesText cs) == []) && !(anyMediaList cs)

mutual

/-- One selector's `el.querySelectorAll(sel).forEach(node => node.remove())`, with the
selector abstracted as an element-local predicate on tag and attributes (every default
selector is of this shape).  Removing a matched node removes its whole subtree;
removal of an already-detached node is a no-op, so the snapshot loop equals this
structural recursion. -/
def removeMatching (p : String → List (String × List Char) → Bool) : DNode → List DNode
  | .text s => [.text s]
  | .elem t attrs cs =>
    if p t attrs then [] else [.elem t attrs (removeMatchingList p cs)]

def removeMatchingList (p : String → List (String × List Char) → Bool) :
    List DNode → List DNode
  | [] => []
  | n :: ns => removeMatching p n ++ removeMatchingList p ns

end

/-- The selector pass: `allRemoveSelectors.forEach(sel => …)` over the root's children. -/
def cleanPass1 (sels : List (String → List (String × List Char) → Bool))
    (ns : List DNode) : List DNode :=
  sels.foldl (fun acc p => removeMatchingList p acc) ns

mutual

/-- The hidden/empty pass (`el.querySelectorAll('*')` loop).  The snapshot is taken
up-front and visited in document order (preorder), so when an element is visited its
own subtree is still untouched: the hidden and empty checks read exactly the subtree
this recursion carries, and removal of an element whose ancestor was already removed is
a no-op — the loop therefore equals this structural recursion. -/
def hiddenPass : DNode → List DNode
  | .text s => [.text s]
  | .elem t attrs cs =>
    if mediaTag t then [.elem t attrs (hiddenPassList cs)]
    else if isHidden attrs then []
    else if isEmptyElem cs then []
    else [.elem t attrs (hiddenPassList cs)]

def hiddenPassList : List DNode → List DNode
  | [] => []
  | n :: ns => hiddenPass n ++ hiddenPassList ns

end

/-- `cleanContent(el, removeSelectors)`: selector pass, hidden/empty pass, image pass. -/
def cleanContent (sels : List (String → List (String × List Char) → Bool))
    (res : List Char → Option (List Char)) (el : DNode) : DNode :=
  match el with
  | .text s => .text s
  | .elem t attrs cs =>
    .elem t attrs
      (imagePassList res t (hiddenPassList (cleanPass1 sels cs))
        (hiddenPassList (cleanPass1 sels cs)))

mutual

/-- `f` holds at every element node (tag, attributes, children) of the tree. -/
def allElems (f : String → List (String × List Char) → List DNode → Bool) : DNode → Bool
  | .text _ => true
  | .elem t attrs cs => f t attrs cs && allElemsList f cs

def allElemsList (f : String → List (String × List Char) → List DNode → Bool) :
    List DNode → Bool
  | [] => true
  | n :: ns => allElems f n && allElemsList f ns

end

/-- Predicate guaranteed by the hidden/empty pass: every non-media element is visible. -/
def noHiddenCheck (t : String) (a : List (String × List Char)) (_ : List DNode) : Bool :=
  mediaTag t || !(isHidden a)

/-- Predicate the claim asserts: every non-media element has text or media below it. -/
def noEmptyCheck (t : String) (_ : List (String × List Char)) (cs : List DNode) : Bool :=
  mediaTag t || !(isEmptyElem cs)

/-- Hypothesis for the empty-leaf clause: no image the pass would drop. -/
def noSmallImg (t : String) (a : List (String × List Char)) (_ : List DNode) : Bool :=
  !((t == "img") && imgSmall a)

/-- DOM nodes with identity, for tracking `cloneNode`: `id` is the node's identity, so
"node-identical" is id-equality.  Tag and text are kept to express what the fallback
chain selects. -/
inductive INode where
  | text (id : Nat) (s : List Char) : INode
  | elem (id : Nat) (tag : String) (children : List INode) : INode

mutual

def iIds : INode → List Nat
  | .text i _ => [i]
  | .elem i _ cs => i :: iIdsList cs

def iIdsList : List INode → List Nat
  | [] => []
  | n :: ns => iIds n ++ iIdsList ns

end

mutual

/-- `node.cloneNode(true)`: structurally identical tree whose node identities are all
fresh; freshness is modeled by shifting every id by `k`. -/
def shiftIds (k : Nat) : INode → INode
  | .text i s => .text (i + k) s
  | .elem i t cs => .elem (i + k) t (shiftIdsList k cs)

def shiftIdsList (k : Nat) : List INode → List INode
  | [] => []
  | n :: ns => shiftIds k n :: shiftIdsList k ns

end

def isElem : INode → Bool
  | .elem _ _ _ => true
  | .text _ _ => false

/-- `selector = configs[hostname] ? configs[hostname].selector : 'main'`. -/
def selectorOf (configs : List (List Char × List Char)) (hostname : List Char) :
    List Char :=
  match fnLookup configs hostname with
  | some sel => sel
  | none => "main".data

/-- `getMainElement(doc, hostname, configs)`.  `readability` abstracts
`new Readability(doc.cloneNode(true)).parse()?.content` (with DOMPurify applied);
`qsel` abstracts `doc.querySelector`; `body` is `doc.body`; `freshId` exceeds every id
of the live document, so clones and created elements are fresh. -/
def getMainElement (readability : Option (List Char))
    (qsel : List Char → Option INode) (configs : List (List Char × List Char))
    (hostname : List Char) (body : INode) (freshId : Nat) : INode :=
  match readability with
  | some content => .elem freshId "div" [.text (freshId + 1) content]
  | none =>
    match qsel (selectorOf configs hostname) with
    | some el => shiftIds freshId el
    | none =>
      match qsel "article, main".data with
      | some el => shiftIds freshId el
      | none => shiftIds freshId body

example : slugify "Hello World".data = "hello-world".data := by decide

example : slugify "What is C++?".data = "what-is-c".data := by decide

example : slugify "foo__bar--baz".data = "foo-bar-baz".data := by decide

example : slugify "---hello---".data = "hello".data := by decide

example : slugify [] = [] := by decide

theorem toNat_ofNat_of_lt {n : Nat} (h : n < 55296) : (Char.ofNat n).toNat = n := by
  rw [Char.ofNat, dif_pos (Or.inl h)]
  simp [Char.ofNatAux, Char.toNat, UInt32.ofNat', UInt32.toNat]

theorem jsToLower_not_upper (c : Char) : ¬('A' ≤ jsToLower c ∧ jsToLower c ≤ 'Z') := by
  unfold jsToLower
  split
  · rename_i h
    simp only [Bool.and_eq_true, decide_eq_true_eq] at h
    rcases h with ⟨h1, h2⟩
    have h1' : 65 ≤ c.toNat := h1
    have h2' : c.toNat ≤ 90 := h2
    intro ⟨ha, hb⟩
    have hb' : (Char.ofNat (c.toNat + 32)).toNat ≤ 90 := hb
    rw [toNat_ofNat_of_lt (by omega)] at hb'
    omega
  · rename_i h
    simp only [Bool.and_eq_true, decide_eq_true_eq, not_and, not_le] at h
    intro ⟨ha, hb⟩
    exact absurd hb (not_le.mpr (h ha))

theorem mem_collapseSepsAux (P : Char → Prop) (l : List Char) (hl : ∀ c ∈ l, P c) :
    ∀ b c, c ∈ collapseSepsAux b l → (P c ∧ isSlugSep c = false) ∨ c = '-' := by
  induction l with
  | nil => intro b c hc; cases b <;> simp [collapseSepsAux] at hc
  | cons a t ih =>
    intro b c hc
    have hPt : ∀ x ∈ t, P x := fun x hx => hl x (List.mem_cons_of_mem a hx)
    have hPa : P a := hl a (List.mem_cons_self a t)
    by_cases hs : isSlugSep a
    · cases b with
      | true =>
        rw [collapseSepsAux, if_pos hs] at hc
        exact ih hPt true c hc
      | false =>
        rw [collapseSepsAux, if_pos hs] at hc
        rcases List.mem_cons.mp hc with h | h
        · exact Or.inr h
        · exact ih hPt true c h
    · cases b with
      | true =>
        rw [collapseSepsAux, if_neg hs] at hc
        rcases List.mem_cons.mp hc with h | h
        · subst h; exact Or.inl ⟨hPa, by simpa using hs⟩
        · exact ih hPt false c h
      | false =>
        rw [collapseSepsAux, if_neg hs] at hc
        rcases List.mem_cons.mp hc with h | h
        · subst h; exact Or.inl ⟨hPa, by simpa using hs⟩
        · exact ih hPt false c h

theorem head?_dropWhile_not (p : Char → Bool) (l : List Char) :
    ∀ c, (l.dropWhile p).head? = some c → p c = false := by
  induction l with
  | nil => intro c hc; simp [List.dropWhile] at hc
  | cons a t ih =>
    intro c hc
    rw [List.dropWhile_cons] at hc
    by_cases hp : p a
    · rw [if_pos hp] at hc
      exact ih c hc
    · rw [if_neg hp] at hc
      simp only [List.head?_cons, Option.some.injEq] at hc
      subst hc
      simpa using hp

theorem mem_of_mem_dropWhile (p : Char → Bool) (l : List Char) (c : Char)
    (h : c ∈ l.dropWhile p) : c ∈ l :=
  List.Sublist.mem h (List.dropWhile_sublist p)

theorem mem_of_mem_jsTrim (l : List Char) (c : Char) (h : c ∈ jsTrim l) : c ∈ l := by
  unfold jsTrim jsTrimEnd jsTrimStart at h
  rw [List.mem_reverse] at h
  have h2 := mem_of_mem_dropWhile _ _ _ h
  rw [List.mem_reverse] at h2
  exact mem_of_mem_dropWhile _ _ _ h2

theorem mem_of_mem_stripEdgeHyphens (l : List Char) (c : Char)
    (h : c ∈ stripEdgeHyphens l) : c ∈ l := by
  unfold stripEdgeHyphens at h
  rw [List.mem_reverse] at h
  have h2 := mem_of_mem_dropWhile _ _ _ h
  rw [List.mem_reverse] at h2
  exact mem_of_mem_dropWhile _ _ _ h2

theorem collapseSepsAux_chain (l : List Char) :
    (List.Chain' NoAdjHyphens (collapseSepsAux true l) ∧
      List.Chain' NoAdjHyphens (collapseSepsAux false l)) ∧
    (∀ c, (collapseSepsAux true l).head? = some c → isSlugSep c = false) := by
  induction l with
  | nil => refine ⟨⟨?_, ?_⟩, ?_⟩ <;> simp [collapseSepsAux]
  | cons a t ih =>
    obtain ⟨⟨iht, ihf⟩, ihh⟩ := ih
    by_cases hs : isSlugSep a
    · refine ⟨⟨?_, ?_⟩, ?_⟩
      · rw [collapseSepsAux, if_pos hs]; exact iht
      · rw [collapseSepsAux, if_pos hs]
        rw [List.chain'_cons']
        refine ⟨?_, iht⟩
        intro b hb
        have hns := ihh b hb
        intro ⟨_, hb'⟩
        subst hb'
        simp [isSlugSep] at hns
      · intro c hc
        rw [collapseSepsAux, if_pos hs] at hc
        exact ihh c hc
    · have hnd : a ≠ '-' := by
        intro h
        subst h
        simp [isSlugSep] at hs
      refine ⟨⟨?_, ?_⟩, ?_⟩
      · rw [collapseSepsAux, if_neg hs]
        rw [List.chain'_cons']
        exact ⟨fun b _ => fun ⟨ha, _⟩ => hnd ha, ihf⟩
      · rw [collapseSepsAux, if_neg hs]
        rw [List.chain'_cons']
        exact ⟨fun b _ => fun ⟨ha, _⟩ => hnd ha, ihf⟩
      · intro c hc
        rw [collapseSepsAux, if_neg hs] at hc
        simp only [List.head?_cons, Option.some.injEq] at hc
        subst hc
        simpa using hs

theorem chain_stripEdgeHyphens (l : List Char) (h : List.Chain' NoAdjHyphens l) :
    List.Chain' NoAdjHyphens (stripEdgeHyphens l) := by
  have hflip : flip NoAdjHyphens = NoAdjHyphens := by
    funext a b
    simp only [flip, NoAdjHyphens, eq_iff_iff]
    tauto
  have hdrop : ∀ m : List Char, List.Chain' NoAdjHyphens m →
      List.Chain' NoAdjHyphens (m.dropWhile (· == '-')) := by
    intro m hm
    have := List.takeWhile_append_dropWhile (· == '-') m
    rw [← this] at hm
    exact (List.chain'_append.mp hm).2.1
  unfold stripEdgeHyphens
  rw [List.chain'_reverse, hflip]
  apply hdrop
  rw [List.chain'_reverse, hflip]
  exact hdrop l h

theorem slugify_chars (s : List Char) : ∀ c ∈ slugify s, isSlugChar c = true := by
  intro c hc
  have hinp : ∀ x ∈ keepWordChars (jsTrim (s.map jsToLower)),
      (isWordChar x || isJsWhitespace x || x == '-') = true ∧ ¬('A' ≤ x ∧ x ≤ 'Z') := by
    intro x hx
    refine ⟨(List.mem_filter.mp hx).2, ?_⟩
    have hx2 : x ∈ jsTrim (s.map jsToLower) := (List.mem_filter.mp hx).1
    have hx3 := mem_of_mem_jsTrim _ _ hx2
    obtain ⟨y, _, rfl⟩ := List.mem_map.mp hx3
    exact jsToLower_not_upper y
  have hc1 := mem_of_mem_stripEdgeHyphens _ _ hc
  rw [collapseSeps] at hc1
  rcases mem_collapseSepsAux _ _ hinp false c hc1 with ⟨⟨hw, hup⟩, hsep⟩ | hdash
  · simp only [isSlugSep, Bool.or_eq_false_iff] at hsep
    obtain ⟨⟨hws, hund⟩, hdash⟩ := hsep
    rw [hws, hdash] at hw
    simp only [Bool.or_false] at hw
    simp only [isWordChar, Bool.or_eq_true, Bool.and_eq_true, decide_eq_true_eq,
      beq_iff_eq] at hw
    simp only [isSlugChar, Bool.or_eq_true, Bool.and_eq_true, decide_eq_true_eq, beq_iff_eq]
    rcases hw with ((hw | hw) | hw) | hw
    · exact Or.inl (Or.inl hw)
    · exact absurd hw hup
    · exact Or.inl (Or.inr hw)
    · subst hw
      simp at hund
  · subst hdash
    decide

theorem getLast?_dropWhile_eq (p : Char → Bool) (l : List Char) (c : Char)
    (h : (l.dropWhile p).getLast? = some c) : l.getLast? = some c := by
  induction l with
  | nil => simp [List.dropWhile] at h
  | cons a t ih =>
    rw [List.dropWhile_cons] at h
    by_cases hp : p a
    · rw [if_pos hp] at h
      have ht := ih h
      cases t with
      | nil => simp at ht
      | cons b u => rw [List.getLast?_cons_cons]; exact ht
    · rwa [if_neg hp] at h

theorem slugify_head (s : List Char) : ∀ c, (slugify s).head? = some c → c ≠ '-' := by
  intro c hc
  unfold slugify stripEdgeHyphens at hc
  rw [List.head?_reverse] at hc
  have h1 := getLast?_dropWhile_eq _ _ _ hc
  rw [List.getLast?_reverse] at h1
  have := head?_dropWhile_not (· == '-') _ c h1
  simpa using this

theorem slugify_last (s : List Char) : ∀ c, (slugify s).getLast? = some c → c ≠ '-' := by
  intro c hc
  unfold slugify stripEdgeHyphens at hc
  rw [List.getLast?_reverse] at hc
  have := head?_dropWhile_not (· == '-') _ c hc
  simpa using this

theorem slugify_chain (s : List Char) : List.Chain' NoAdjHyphens (slugify s) := by
  unfold slugify
  apply chain_stripEdgeHyphens
  rw [collapseSeps]
  exact ((collapseSepsAux_chain _).1).2

/-- C9: for every input string, `slugify` returns a string containing only lowercase
ASCII letters, digits and hyphens, with no leading hyphen, no trailing hyphen and no two
consecutive hyphens — every generated TOC anchor is a well-formed fragment identifier. -/
theorem slugify_wellformed (s : List Char) :
    (∀ c ∈ slugify s, isSlugChar c = true) ∧
    (∀ c, (slugify s).head? = some c → c ≠ '-') ∧
    (∀ c, (slugify s).getLast? = some c → c ≠ '-') ∧
    List.Chain' NoAdjHyphens (slugify s) :=
  ⟨slugify_chars s, slugify_head s, slugify_last s, slugify_chain s⟩

/-- Closed instantiation of `slugify_wellformed` on a concrete input. -/
theorem slugify_wellformed_witness :
    ('h' ∈ slugify "Hello World".data ∧ isSlugChar 'h' = true) ∧
    slugify "Hello World".data = "hello-world".data :=
  ⟨⟨by decide, (slugify_wellformed "Hello World".data).1 'h' (by decide)⟩, by decide⟩

theorem splitLinesCRLF_nl (t : List Char) : splitLinesCRLF ('\n' :: t) = [] :: splitLinesCRLF t := by
  rw [splitLinesCRLF.eq_def]
  simp

theorem splitLinesCRLF_cons_other (c : Char) (t : List Char) (hn : c ≠ '\n') (hr : c ≠ '\r') :
    splitLinesCRLF (c :: t) = (splitLinesCRLF t).modifyHead (c :: ·) := by
  rw [splitLinesCRLF.eq_def]
  simp only []
  rw [if_neg hn, if_neg hr]

theorem splitLinesCRLF_cr (t : List Char) (h : t.head? ≠ some '\n') :
    splitLinesCRLF ('\r' :: t) = (splitLinesCRLF t).modifyHead ('\r' :: ·) := by
  rw [splitLinesCRLF.eq_def]
  simp only []
  rw [if_neg (by decide), if_pos trivial]
  cases t with
  | nil => rfl
  | cons b u =>
    split
    · rename_i u2 heq
      injection heq with h1 h2
      exfalso
      apply h
      simp [h1]
    · rename_i heq
      simp at heq
    · rename_i b2 u2 hcond heq
      injection heq with h1 h2
      subst h1
      subst h2
      rfl

theorem splitLinesCRLF_ne_nil (l : List Char) : splitLinesCRLF l ≠ [] := by
  induction l with
  | nil => simp [splitLinesCRLF]
  | cons a t ih =>
    by_cases hn : a = '\n'
    · subst hn
      rw [splitLinesCRLF_nl]
      simp
    · by_cases hr : a = '\r'
      · subst hr
        rw [splitLinesCRLF.eq_def]
        simp only []
        rw [if_neg (by decide), if_pos trivial]
        cases t with
        | nil => simp
        | cons b u =>
          split
          · simp
          · rename_i heq
            simp at heq
          · rename_i b2 u2 hcond heq
            injection heq with h1 h2
            subst h1
            subst h2
            intro h
            exact ih (List.modifyHead_eq_nil_iff.mp h)
      · rw [splitLinesCRLF_cons_other a t hn hr]
        intro h
        exact ih (List.modifyHead_eq_nil_iff.mp h)

theorem dropWhile_dropWhile (p : Char → Bool) (l : List Char) :
    (l.dropWhile p).dropWhile p = l.dropWhile p := by
  cases h : l.dropWhile p with
  | nil => simp [List.dropWhile]
  | cons a t =>
    have ha := head?_dropWhile_not p l a (by rw [h]; rfl)
    rw [List.dropWhile_cons, if_neg (by simp [ha])]

theorem jsTrimStart_eq_self (l : List Char)
    (h : ∀ c, l.head? = some c → isJsWhitespace c = false) : jsTrimStart l = l := by
  cases l with
  | nil => rfl
  | cons a t =>
    unfold jsTrimStart
    rw [List.dropWhile_cons, if_neg (by simp [h a rfl])]

theorem jsTrimEnd_eq_self (l : List Char)
    (h : ∀ c, l.getLast? = some c → isJsWhitespace c = false) : jsTrimEnd l = l := by
  unfold jsTrimEnd
  have : l.reverse.dropWhile isJsWhitespace = l.reverse := by
    apply jsTrimStart_eq_self l.reverse
    intro c hc
    rw [List.head?_reverse] at hc
    exact h c hc
  rw [this, List.reverse_reverse]

theorem head?_jsTrimEnd (l : List Char) (c : Char) (h : (jsTrimEnd l).head? = some c) :
    l.head? = some c := by
  unfold jsTrimEnd at h
  rw [List.head?_reverse] at h
  have := getLast?_dropWhile_eq _ _ _ h
  rwa [List.getLast?_reverse] at this

theorem jsTrim_head_not_ws (l : List Char) :
    ∀ c, (jsTrim l).head? = some c → isJsWhitespace c = false := by
  intro c hc
  unfold jsTrim at hc
  have h1 := head?_jsTrimEnd _ _ hc
  exact head?_dropWhile_not _ _ c h1

theorem jsTrim_getLast_not_ws (l : List Char) :
    ∀ c, (jsTrim l).getLast? = some c → isJsWhitespace c = false := by
  intro c hc
  unfold jsTrim jsTrimEnd at hc
  rw [List.getLast?_reverse] at hc
  exact head?_dropWhile_not _ _ c hc

theorem jsTrim_eq_self (l : List Char)
    (h1 : ∀ c, l.head? = some c → isJsWhitespace c = false)
    (h2 : ∀ c, l.getLast? = some c → isJsWhitespace c = false) : jsTrim l = l := by
  unfold jsTrim
  rw [jsTrimStart_eq_self l h1, jsTrimEnd_eq_self l h2]

theorem jsTrim_idem (l : List Char) : jsTrim (jsTrim l) = jsTrim l :=
  jsTrim_eq_self _ (jsTrim_head_not_ws l) (jsTrim_getLast_not_ws l)

example :
    stripFrontMatter "---\ntitle: Hello\n---\nBody text".data =
      ⟨some "---\ntitle: Hello\n---".data, "Body text".data⟩ := by decide

example : stripFrontMatter "Just content".data = ⟨none, "Just content".data⟩ := by decide

example :
    stripFrontMatter "---\ntitle: Hello\nNo closing".data =
      ⟨none, "---\ntitle: Hello\nNo closing".data⟩ := by decide

/-- C10: `stripFrontMatter` always returns content with no leading or trailing
whitespace, and on an unterminated front-matter opener (left-trimmed input starts with
`---` but no later line trims to `---`) it returns no front matter and the whole input
trimmed, keeping the opener in the content. -/
theorem stripFrontMatter_safe (markdown : List Char) :
    jsTrim (stripFrontMatter markdown).content = (stripFrontMatter markdown).content ∧
    ((['-', '-', '-'].isPrefixOf (jsTrimStart markdown)) = true →
      (∀ l ∈ (splitLinesCRLF (jsTrimStart markdown)).drop 1, jsTrim l ≠ ['-', '-', '-']) →
      (stripFrontMatter markdown).frontMatter = none ∧
      (stripFrontMatter markdown).content = jsTrim markdown) := by
  constructor
  · unfold stripFrontMatter
    split
    · split
      · exact jsTrim_idem markdown
      · exact jsTrim_idem _
    · exact jsTrim_idem markdown
  · intro hpre hall
    have hnone : ((splitLinesCRLF (jsTrimStart markdown)).drop 1).findIdx?
        (fun l => jsTrim l == ['-', '-', '-']) = none := by
      rw [List.findIdx?_eq_none_iff]
      intro l hl
      simpa using hall l hl
    unfold stripFrontMatter
    rw [if_pos hpre]
    simp only [hnone]
    exact ⟨trivial, trivial⟩

/-- Closed instantiation of `stripFrontMatter_safe` on a concrete unterminated input. -/
theorem stripFrontMatter_safe_witness :
    jsTrim (stripFrontMatter "---\nlost".data).content =
      (stripFrontMatter "---\nlost".data).content ∧
    (stripFrontMatter "---\nlost".data).frontMatter = none ∧
    (stripFrontMatter "---\nlost".data).content = jsTrim "---\nlost".data :=
  ⟨(stripFrontMatter_safe "---\nlost".data).1,
    (stripFrontMatter_safe "---\nlost".data).2 (by decide) (by decide)⟩

example : escapeYaml "say \"hello\"".data = "say \\\"hello\\\"".data := by decide

example : escapeYaml "line1\nline2\ttab".data = "line1\\nline2\\ttab".data := by decide

example :
    buildFrontMatter ⟨"T".data, "https://e.com".data, "J".data, "D".data, "R".data⟩ =
      "---\ntitle: \"T\"\nsource: \"https://e.com\"\nretrieved: \"R\"\nauthor: \"J\"\ndescription: \"D\"\ntags: []\ntoc: true\n---".data := by
  decide

theorem mem_replaceChar (t : Char) (r : List Char) (l : List Char) (c : Char)
    (h : c ∈ replaceChar t r l) : c ∈ r ∨ (c ∈ l ∧ c ≠ t) := by
  induction l with
  | nil => simp [replaceChar] at h
  | cons a cs ih =>
    rw [replaceChar] at h
    rcases List.mem_append.mp h with h1 | h1
    · by_cases ha : a = t
      · rw [if_pos ha] at h1
        exact Or.inl h1
      · rw [if_neg ha] at h1
        simp only [List.mem_singleton] at h1
        subst h1
        exact Or.inr ⟨List.mem_cons_self _ _, ha⟩
    · rcases ih h1 with h2 | ⟨h2, h3⟩
      · exact Or.inl h2
      · exact Or.inr ⟨List.mem_cons_of_mem _ h2, h3⟩

theorem escapeYaml_no_break (v : List Char) :
    ∀ c ∈ escapeYaml v, c ≠ '\n' ∧ c ≠ '\r' := by
  intro c hc
  unfold escapeYaml at hc
  rcases mem_replaceChar _ _ _ _ hc with h | ⟨h, hne⟩
  · constructor <;> (intro he; subst he; simp at h)
  · rcases mem_replaceChar _ _ _ _ h with h2 | ⟨h2, hne2⟩
    · constructor <;> (intro he; subst he; simp at h2)
    · refine ⟨?_, hne2⟩
      intro he
      subst he
      rcases mem_replaceChar _ _ _ _ h2 with h3 | ⟨h3, hne3⟩
      · simp at h3
      · exact hne3 rfl

theorem joinWith_cons (c : Char) (l : List Char) (ls : List (List Char)) (h : ls ≠ []) :
    joinWith c (l :: ls) = l ++ c :: joinWith c ls := by
  cases ls with
  | nil => exact absurd rfl h
  | cons l2 rest => rfl

theorem joinWith_modifyHead (c a : Char) (ls : List (List Char)) (h : ls ≠ []) :
    joinWith c (ls.modifyHead (a :: ·)) = a :: joinWith c ls := by
  cases ls with
  | nil => exact absurd rfl h
  | cons l rest =>
    cases rest with
    | nil => rfl
    | cons l2 rest2 => rfl

theorem joinWith_splitLinesCRLF (l : List Char) (h : NoCRLF l) :
    joinWith '\n' (splitLinesCRLF l) = l := by
  induction l with
  | nil => rfl
  | cons a t ih =>
    have ht : NoCRLF t := List.Chain'.tail h
    by_cases hn : a = '\n'
    · subst hn
      rw [splitLinesCRLF_nl,
        joinWith_cons _ _ _ (splitLinesCRLF_ne_nil t), List.nil_append, ih ht]
    · by_cases hr : a = '\r'
      · subst hr
        have hhead : t.head? ≠ some '\n' := by
          intro hh
          cases t with
          | nil => simp at hh
          | cons b u =>
            simp only [List.head?_cons, Option.some.injEq] at hh
            subst hh
            exact (List.chain'_cons.mp h).1 ⟨rfl, rfl⟩
        rw [splitLinesCRLF_cr t hhead,
          joinWith_modifyHead _ _ _ (splitLinesCRLF_ne_nil t), ih ht]
      · rw [splitLinesCRLF_cons_other a t hn hr,
          joinWith_modifyHead _ _ _ (splitLinesCRLF_ne_nil t), ih ht]

theorem splitLinesCRLF_append_nl (l r : List Char) (hn : '\n' ∉ l)
    (hl : l.getLast? ≠ some '\r') :
    splitLinesCRLF (l ++ '\n' :: r) = l :: splitLinesCRLF r := by
  induction l with
  | nil => simpa using splitLinesCRLF_nl r
  | cons a u ih =>
    have han : a ≠ '\n' := fun h => hn (h ▸ List.mem_cons_self a u)
    have hnu : '\n' ∉ u := fun h => hn (List.mem_cons_of_mem a h)
    by_cases hr : a = '\r'
    · subst hr
      cases u with
      | nil =>
        exfalso
        apply hl
        rfl
      | cons b u2 =>
        have hb : b ≠ '\n' := fun h => hnu (h ▸ List.mem_cons_self b u2)
        have hlast : (b :: u2).getLast? ≠ some '\r' := by
          rwa [List.getLast?_cons_cons] at hl
        have hstep := ih (by simpa using hnu) hlast
        rw [List.cons_append]
        rw [splitLinesCRLF_cr _ (by simp [List.cons_append, hb])]
        rw [hstep]
        rfl
    · rw [List.cons_append, splitLinesCRLF_cons_other a _ han hr]
      cases u with
      | nil =>
        rw [List.nil_append, splitLinesCRLF_nl]
        rfl
      | cons b u2 =>
        have hlast : (b :: u2).getLast? ≠ some '\r' := by
          rwa [List.getLast?_cons_cons] at hl
        rw [ih (by simpa using hnu) hlast]
        rfl

theorem jsTrimEnd_cons (c : Char) (x : List Char) :
    jsTrimEnd (c :: x) =
      if jsTrimEnd x = [] then (if isJsWhitespace c then [] else [c])
      else c :: jsTrimEnd x := by
  unfold jsTrimEnd
  rw [List.reverse_cons, List.dropWhile_append]
  by_cases he : (x.reverse.dropWhile isJsWhitespace).isEmpty
  · rw [if_pos he]
    have he2 : (x.reverse.dropWhile isJsWhitespace).reverse = [] := by
      rw [List.isEmpty_iff] at he
      rw [he]
      rfl
    rw [if_pos he2]
    by_cases hc : isJsWhitespace c
    · rw [if_pos hc]
      simp [List.dropWhile, hc]
    · rw [if_neg hc]
      simp [List.dropWhile, hc]
  · rw [if_neg he]
    have he2 : (x.reverse.dropWhile isJsWhitespace).reverse ≠ [] := by
      rw [List.isEmpty_iff] at he
      simpa using he
    rw [if_neg he2]
    rw [List.reverse_append]
    rfl

theorem head?_jsTrim_cons (c : Char) (x : List Char) (h : isJsWhitespace c = false) :
    (jsTrim (c :: x)).head? = some c := by
  unfold jsTrim
  have h1 : jsTrimStart (c :: x) = c :: x := by
    unfold jsTrimStart
    rw [List.dropWhile_cons, if_neg (by simp [h])]
  rw [h1, jsTrimEnd_cons]
  by_cases he : jsTrimEnd x = []
  · rw [if_pos he, if_neg (by simp [h])]
    rfl
  · rw [if_neg he]
    rfl

theorem jsTrim_ne_dashes (c : Char) (x : List Char) (hws : isJsWhitespace c = false)
    (hc : c ≠ '-') : (jsTrim (c :: x) == ['-', '-', '-']) = false := by
  rw [beq_eq_false_iff_ne]
  intro heq
  have := head?_jsTrim_cons c x hws
  rw [heq] at this
  simp only [List.head?_cons, Option.some.injEq] at this
  exact hc this.symm

theorem jsTrim_nl_cons (body : List Char)
    (h1 : ∀ c, body.head? = some c → isJsWhitespace c = false)
    (h2 : ∀ c, body.getLast? = some c → isJsWhitespace c = false) :
    jsTrim ('\n' :: body) = body := by
  unfold jsTrim
  have hs : jsTrimStart ('\n' :: body) = body := by
    unfold jsTrimStart
    rw [List.dropWhile_cons, if_pos (by decide)]
    exact jsTrimStart_eq_self body h1
  rw [hs, jsTrimEnd_eq_self body h2]

theorem isPrefixOf_append_self (l rest : List Char) : (l.isPrefixOf (l ++ rest)) = true := by
  induction l with
  | nil => simp [List.isPrefixOf]
  | cons a t ih => simp [List.isPrefixOf, ih]

theorem noCRLF_of_no_cr (l : List Char) (h : '\r' ∉ l) : NoCRLF l := by
  induction l with
  | nil => exact List.chain'_nil
  | cons a t ih =>
    rw [NoCRLF, List.chain'_cons']
    refine ⟨?_, ih (fun hm => h (List.mem_cons_of_mem _ hm))⟩
    intro y hy
    intro ⟨ha, _⟩
    exact h (ha ▸ List.mem_cons_self a t)

theorem quoted_line_no_nl (pre mid : List Char) (hpre : '\n' ∉ pre)
    (hmid : ∀ c ∈ mid, c ≠ '\n') : '\n' ∉ pre ++ mid ++ ['"'] := by
  intro h
  rcases List.mem_append.mp h with h1 | h1
  · rcases List.mem_append.mp h1 with h2 | h2
    · exact hpre h2
    · exact hmid '\n' h2 rfl
  · simp at h1

theorem quoted_line_last (pre mid : List Char) :
    (pre ++ mid ++ ['"']).getLast? = some '"' :=
  List.getLast?_concat _

/-- C4 (amended): the front-matter round trip
`stripFrontMatter (buildFrontMatter meta ++ "\n\n" ++ body) = body` holds for every
metadata whose `source` and `retrieved` fields contain no newline (they are not
YAML-escaped by `buildFrontMatter`) and every body with no leading or trailing
whitespace and no CRLF pair (the line split normalises CRLF to LF). -/
theorem buildFrontMatter_roundTrip (m : PageMetadata) (body : List Char)
    (hsrc : '\n' ∉ m.source) (hret : '\n' ∉ m.retrieved)
    (hhead : ∀ c, body.head? = some c → isJsWhitespace c = false)
    (hlast : ∀ c, body.getLast? = some c → isJsWhitespace c = false)
    (hbody : NoCRLF body) :
    (stripFrontMatter (buildFrontMatter m ++ '\n' :: '\n' :: body)).content = body := by
  have hshape : buildFrontMatter m ++ '\n' :: '\n' :: body =
      ['-', '-', '-'] ++ '\n' :: (("title: \"".data ++ escapeYaml m.title ++ ['"']) ++ '\n' ::
      (("source: \"".data ++ m.source ++ ['"']) ++ '\n' ::
      (("retrieved: \"".data ++ m.retrieved ++ ['"']) ++ '\n' ::
      (("author: \"".data ++ escapeYaml m.author ++ ['"']) ++ '\n' ::
      (("description: \"".data ++ escapeYaml m.description ++ ['"']) ++ '\n' ::
      ("tags: []".data ++ '\n' ::
      ("toc: true".data ++ '\n' ::
      (['-', '-', '-'] ++ '\n' :: '\n' :: body)))))))) := by
    simp [buildFrontMatter, frontMatterLines, joinWith, List.append_assoc]
  have hsplit : splitLinesCRLF (buildFrontMatter m ++ '\n' :: '\n' :: body) =
      ['-', '-', '-'] ::
      ("title: \"".data ++ escapeYaml m.title ++ ['"']) ::
      ("source: \"".data ++ m.source ++ ['"']) ::
      ("retrieved: \"".data ++ m.retrieved ++ ['"']) ::
      ("author: \"".data ++ escapeYaml m.author ++ ['"']) ::
      ("description: \"".data ++ escapeYaml m.description ++ ['"']) ::
      "tags: []".data :: "toc: true".data :: ['-', '-', '-'] :: [] ::
      splitLinesCRLF body := by
    rw [hshape]
    rw [splitLinesCRLF_append_nl _ _ (by decide) (by decide)]
    rw [splitLinesCRLF_append_nl _ _
      (quoted_line_no_nl _ _ (by decide) (fun c hc => (escapeYaml_no_break _ c hc).1))
      (by rw [quoted_line_last]; simp)]
    rw [splitLinesCRLF_append_nl _ _
      (quoted_line_no_nl _ _ (by decide) (fun c hc he => hsrc (he ▸ hc)))
      (by rw [quoted_line_last]; simp)]
    rw [splitLinesCRLF_append_nl _ _
      (quoted_line_no_nl _ _ (by decide) (fun c hc he => hret (he ▸ hc)))
      (by rw [quoted_line_last]; simp)]
    rw [splitLinesCRLF_append_nl _ _
      (quoted_line_no_nl _ _ (by decide) (fun c hc => (escapeYaml_no_break _ c hc).1))
      (by rw [quoted_line_last]; simp)]
    rw [splitLinesCRLF_append_nl _ _
      (quoted_line_no_nl _ _ (by decide) (fun c hc => (escapeYaml_no_break _ c hc).1))
      (by rw [quoted_line_last]; simp)]
    rw [splitLinesCRLF_append_nl _ _ (by decide) (by decide)]
    rw [splitLinesCRLF_append_nl _ _ (by decide) (by decide)]
    rw [splitLinesCRLF_append_nl _ _ (by decide) (by decide)]
    rw [splitLinesCRLF_nl]
  have htrim : jsTrimStart (buildFrontMatter m ++ '\n' :: '\n' :: body) =
      buildFrontMatter m ++ '\n' :: '\n' :: body := by
    apply jsTrimStart_eq_self
    intro c hc
    rw [hshape] at hc
    simp only [List.cons_append, List.nil_append, List.head?_cons, Option.some.injEq] at hc
    subst hc
    decide
  have hpre : (['-', '-', '-'].isPrefixOf
      (jsTrimStart (buildFrontMatter m ++ '\n' :: '\n' :: body))) = true := by
    rw [htrim, hshape]
    exact isPrefixOf_append_self ['-', '-', '-'] _
  have hfind : ((splitLinesCRLF
        (jsTrimStart (buildFrontMatter m ++ '\n' :: '\n' :: body))).drop 1).findIdx?
      (fun l => jsTrim l == ['-', '-', '-']) = some 7 := by
    rw [htrim, hsplit]
    simp only [List.drop_succ_cons, List.drop_zero]
    rw [List.findIdx?_eq_some_iff_getElem]
    refine ⟨by simp, ?_, ?_⟩
    · simp only [List.getElem_cons_succ, List.getElem_cons_zero]
      decide
    · intro j hj
      interval_cases j
      · simp only [List.getElem_cons_zero]
        rw [Bool.not_eq_true]
        exact jsTrim_ne_dashes 't' _ (by decide) (by decide)
      · simp only [List.getElem_cons_succ, List.getElem_cons_zero]
        rw [Bool.not_eq_true]
        exact jsTrim_ne_dashes 's' _ (by decide) (by decide)
      · simp only [List.getElem_cons_succ, List.getElem_cons_zero]
        rw [Bool.not_eq_true]
        exact jsTrim_ne_dashes 'r' _ (by decide) (by decide)
      · simp only [List.getElem_cons_succ, List.getElem_cons_zero]
        rw [Bool.not_eq_true]
        exact jsTrim_ne_dashes 'a' _ (by decide) (by decide)
      · simp only [List.getElem_cons_succ, List.getElem_cons_zero]
        rw [Bool.not_eq_true]
        exact jsTrim_ne_dashes 'd' _ (by decide) (by decide)
      · simp only [List.getElem_cons_succ, List.getElem_cons_zero]
        rw [Bool.not_eq_true]
        exact jsTrim_ne_dashes 't' _ (by decide) (by decide)
      · simp only [List.getElem_cons_succ, List.getElem_cons_zero]
        rw [Bool.not_eq_true]
        exact jsTrim_ne_dashes 't' _ (by decide) (by decide)
  unfold stripFrontMatter
  rw [if_pos hpre]
  rw [hfind]
  rw [htrim, hsplit]
  simp only [List.drop_succ_cons, List.drop_zero]
  rw [joinWith_cons _ _ _ (splitLinesCRLF_ne_nil body), List.nil_append,
    joinWith_splitLinesCRLF body hbody]
  exact jsTrim_nl_cons body hhead hlast

/-- C4 counterexample: the round trip fails as universally stated — a `source` field
containing a newline and its own `---` line truncates the recovered content, because
`source` is embedded unescaped. -/
theorem buildFrontMatter_roundTrip_cex :
    (stripFrontMatter (buildFrontMatter
        ⟨"t".data, "u\n---\nv".data, "a".data, "d".data, "r".data⟩ ++
      '\n' :: '\n' :: "B".data)).content ≠ "B".data := by decide

/-- Closed instantiation of `buildFrontMatter_roundTrip` on concrete metadata. -/
theorem buildFrontMatter_roundTrip_witness :
    (stripFrontMatter (buildFrontMatter
        ⟨"t".data, "https://e.com".data, "a".data, "d".data, "r".data⟩ ++
      '\n' :: '\n' :: "Body text".data)).content = "Body text".data :=
  buildFrontMatter_roundTrip _ _ (by decide) (by decide) (by decide) (by decide)
    (noCRLF_of_no_cr _ (by decide))

example :
    chooseBestSrcFromSrcset "small.jpg 320w, large.jpg 1024w".data =
      some "large.jpg".data := by decide

example :
    chooseBestSrcFromSrcset "normal.jpg 1x, retina.jpg 2x".data =
      some "retina.jpg".data := by decide

example : chooseBestSrcFromSrcset [] = none := by decide

example : chooseBestSrcFromSrcset "only.jpg".data = some "only.jpg".data := by decide

theorem scoreLE_refl (a : Option (Int × Nat)) : scoreLE a a := by
  match a with
  | none => trivial
  | some (v, k) => exact le_refl _

theorem scoreLE_trans {va vb vc : Int} {ka kb kc : Nat}
    (hab : scoreLE (some (va, ka)) (some (vb, kb)))
    (hbc : scoreLE (some (vb, kb)) (some (vc, kc))) :
    scoreLE (some (va, ka)) (some (vc, kc)) := by
  simp only [scoreLE] at hab hbc ⊢
  have h10 : (0 : Int) < 10 := by norm_num
  nlinarith [mul_le_mul_of_nonneg_right hab (le_of_lt (pow_pos h10 kc)),
    mul_le_mul_of_nonneg_right hbc (le_of_lt (pow_pos h10 ka)),
    pow_pos h10 kb, pow_pos h10 ka, pow_pos h10 kc]

theorem scoreLE_of_scoreLT {a b : Option (Int × Nat)} (h : scoreLT a b) : scoreLE a b := by
  match a, b with
  | none, _ => trivial
  | some (v1, k1), none => trivial
  | some (v1, k1), some (v2, k2) => exact le_of_lt h

theorem scoreGE_true {a b : Option (Int × Nat)} (ha : a ≠ none) (hb : b ≠ none)
    (h : scoreGE a b = true) : scoreLE b a := by
  match a, b with
  | some (v1, k1), some (v2, k2) =>
    simp only [scoreGE, decide_eq_true_eq] at h
    exact h

theorem scoreGE_false {a b : Option (Int × Nat)} (h : scoreGE a b = false) : scoreLT a b := by
  match a, b with
  | none, none => simp [scoreGE] at h
  | none, some _ => simp [scoreGE] at h
  | some _, none => simp [scoreGE] at h
  | some (v1, k1), some (v2, k2) =>
    simp only [scoreGE, decide_eq_false_iff_not, not_le] at h
    exact h

theorem insertCand_ne_nil (x : Candidate) (s : List Candidate) : insertCand x s ≠ [] := by
  cases s with
  | nil => simp [insertCand]
  | cons y ys =>
    rw [insertCand]
    split <;> simp

theorem sortCandidates_eq_nil {l : List Candidate} (h : sortCandidates l = []) : l = [] := by
  cases l with
  | nil => rfl
  | cons x xs =>
    rw [sortCandidates] at h
    exact absurd h (insertCand_ne_nil x (sortCandidates xs))

theorem mem_insertCand (x c : Candidate) (s : List Candidate) (h : c ∈ insertCand x s) :
    c = x ∨ c ∈ s := by
  induction s with
  | nil =>
    rw [insertCand] at h
    exact Or.inl (List.mem_singleton.mp h)
  | cons y ys ih =>
    rw [insertCand] at h
    split at h
    · rcases List.mem_cons.mp h with h1 | h1
      · exact Or.inl h1
      · exact Or.inr h1
    · rcases List.mem_cons.mp h with h1 | h1
      · exact Or.inr (h1 ▸ List.mem_cons_self y ys)
      · rcases ih h1 with h2 | h2
        · exact Or.inl h2
        · exact Or.inr (List.mem_cons_of_mem y h2)

theorem mem_sortCandidates (c : Candidate) (l : List Candidate) (h : c ∈ sortCandidates l) :
    c ∈ l := by
  induction l with
  | nil => simp [sortCandidates] at h
  | cons x xs ih =>
    rw [sortCandidates] at h
    rcases mem_insertCand x c _ h with h1 | h1
    · exact h1 ▸ List.mem_cons_self x xs
    · exact List.mem_cons_of_mem x (ih h1)

theorem head_sortCandidates (l : List Candidate) (hna : ∀ c ∈ l, c.score ≠ none)
    (c : Candidate) (hc : (sortCandidates l).head? = some c) :
    ∃ i, ∃ hi : i < l.length, l[i] = c ∧
      (∀ j, ∀ hj : j < l.length, scoreLE (l[j]).score c.score) ∧
      (∀ j, j < i → ∀ hj : j < l.length, scoreLT (l[j]).score c.score) := by
  induction l generalizing c with
  | nil => simp [sortCandidates] at hc
  | cons x xs ih =>
    rw [sortCandidates] at hc
    cases hs : sortCandidates xs with
    | nil =>
      have hxs : xs = [] := sortCandidates_eq_nil hs
      subst hxs
      rw [hs] at hc
      simp only [insertCand, List.head?_cons, Option.some.injEq] at hc
      subst hc
      refine ⟨0, by simp, rfl, ?_, ?_⟩
      · intro j hj
        have hj0 : j = 0 := Nat.lt_one_iff.mp (by simpa using hj)
        subst hj0
        exact scoreLE_refl _
      · intro j hj
        omega
    | cons h0 rest =>
      rw [hs] at hc
      have hh0 : (sortCandidates xs).head? = some h0 := by rw [hs]; rfl
      have hnaxs : ∀ d ∈ xs, d.score ≠ none := fun d hd => hna d (List.mem_cons_of_mem x hd)
      obtain ⟨i0, hi0, hieq, hmax, hstrict⟩ := ih hnaxs h0 hh0
      have hh0mem : h0 ∈ xs := hieq ▸ List.getElem_mem hi0
      rw [insertCand] at hc
      split at hc
      · rename_i hge
        simp only [List.head?_cons, Option.some.injEq] at hc
        subst hc
        refine ⟨0, by simp, rfl, ?_, ?_⟩
        · intro j hj
          cases j with
          | zero => exact scoreLE_refl _
          | succ j2 =>
            have hj2 : j2 < xs.length := by simpa using hj
            simp only [List.getElem_cons_succ]
            have hle1 : scoreLE (xs[j2]).score h0.score :=
              hmax j2 hj2
            have hle2 : scoreLE h0.score x.score :=
              scoreGE_true (hna x (List.mem_cons_self x xs)) (hnaxs h0 hh0mem) hge
            obtain ⟨vj, kj, hvj⟩ : ∃ v k, (xs[j2]).score = some (v, k) := by
              cases hsc : (xs[j2]).score with
              | none => exact absurd hsc (hnaxs _ (List.getElem_mem _))
              | some p => exact ⟨p.1, p.2, by simp [hsc]⟩
            obtain ⟨vh, kh, hvh⟩ : ∃ v k, h0.score = some (v, k) := by
              cases hsc : h0.score with
              | none => exact absurd hsc (hnaxs h0 hh0mem)
              | some p => exact ⟨p.1, p.2, by simp [hsc]⟩
            obtain ⟨vc2, kc2, hvc⟩ : ∃ v k, x.score = some (v, k) := by
              cases hsc : x.score with
              | none => exact absurd hsc (hna x (List.mem_cons_self x xs))
              | some p => exact ⟨p.1, p.2, by simp [hsc]⟩
            rw [hvj, hvh] at hle1
            rw [hvh, hvc] at hle2
            rw [hvj, hvc]
            exact scoreLE_trans hle1 hle2
        · intro j hj hj2
          omega
      · rename_i hge
        simp only [List.head?_cons, Option.some.injEq] at hc
        subst hc
        have hlt : scoreLT x.score h0.score :=
          scoreGE_false (eq_false_of_ne_true hge)
        refine ⟨i0 + 1, by simpa using hi0, by simpa using hieq, ?_, ?_⟩
        · intro j hj
          cases j with
          | zero => exact scoreLE_of_scoreLT hlt
          | succ j2 =>
            simp only [List.getElem_cons_succ]
            exact hmax j2 (by simpa using hj)
        · intro j hjlt hj
          cases j with
          | zero => exact hlt
          | succ j2 =>
            simp only [List.getElem_cons_succ]
            exact hstrict j2 (by omega) (by simpa using hj)

/-- C8: `chooseBestSrcFromSrcset` returns the URL of the candidate with the highest
score (width for a `w` descriptor, 100 × density for an `x` descriptor, 1 without a
descriptor), preferring the first-listed candidate on ties (every strictly earlier
candidate scores strictly lower), and returns null exactly when no candidate has a URL;
in particular it picks `large.jpg`, `retina.jpg` and null on the three examples. -/
theorem chooseBestSrcFromSrcset_spec :
    chooseBestSrcFromSrcset "small.jpg 320w, large.jpg 1024w".data =
      some "large.jpg".data ∧
    chooseBestSrcFromSrcset "normal.jpg 1x, retina.jpg 2x".data =
      some "retina.jpg".data ∧
    chooseBestSrcFromSrcset [] = none ∧
    (∀ s : List Char, (chooseBestSrcFromSrcset s = none ↔ srcsetCandidates s = [])) ∧
    (∀ s : List Char, (∀ c ∈ srcsetCandidates s, c.score ≠ none) →
      ∀ u, chooseBestSrcFromSrcset s = some u →
        ∃ i, ∃ hi : i < (srcsetCandidates s).length,
          ((srcsetCandidates s)[i]).url = u ∧
          (∀ j, ∀ hj : j < (srcsetCandidates s).length,
            scoreLE ((srcsetCandidates s)[j]).score ((srcsetCandidates s)[i]).score) ∧
          (∀ j, j < i → ∀ hj : j < (srcsetCandidates s).length,
            scoreLT ((srcsetCandidates s)[j]).score
              ((srcsetCandidates s)[i]).score)) := by
  refine ⟨by decide, by decide, by decide, ?_, ?_⟩
  · intro s
    constructor
    · intro h
      cases hs : sortCandidates (srcsetCandidates s) with
      | nil => exact sortCandidates_eq_nil hs
      | cons c rest =>
        have heq : chooseBestSrcFromSrcset s = (if c.url = [] then none else some c.url) := by
          unfold chooseBestSrcFromSrcset
          rw [hs]
        rw [heq] at h
        split at h
        · rename_i hurl
          have hmem : c ∈ srcsetCandidates s :=
            mem_sortCandidates c _ (hs ▸ List.mem_cons_self c rest)
          have hne := (List.mem_filter.mp hmem).2
          simp only [ne_eq, decide_eq_true_eq] at hne
          exact absurd hurl hne
        · simp at h
    · intro h
      unfold chooseBestSrcFromSrcset
      rw [h]
      rfl
  · intro s hna u hu
    cases hs : sortCandidates (srcsetCandidates s) with
    | nil =>
      have heq : chooseBestSrcFromSrcset s = none := by
        unfold chooseBestSrcFromSrcset
        rw [hs]
      rw [heq] at hu
      simp at hu
    | cons c rest =>
      have heq2 : chooseBestSrcFromSrcset s = (if c.url = [] then none else some c.url) := by
        unfold chooseBestSrcFromSrcset
        rw [hs]
      rw [heq2] at hu
      split at hu
      · simp at hu
      · simp only [Option.some.injEq] at hu
        subst hu
        have hc : (sortCandidates (srcsetCandidates s)).head? = some c := by rw [hs]; rfl
        obtain ⟨i, hi, hieq, hmax, hstrict⟩ := head_sortCandidates _ hna c hc
        refine ⟨i, hi, by rw [hieq], ?_, ?_⟩
        · intro j hj
          rw [hieq]
          exact hmax j hj
        · intro j hjlt hj
          rw [hieq]
          exact hstrict j hjlt hj

/-- Closed instantiation of `chooseBestSrcFromSrcset_spec` on a concrete srcset. -/
theorem chooseBestSrcFromSrcset_spec_witness :
    chooseBestSrcFromSrcset "a 1x, b 2x".data = some "b".data ∧
    ∃ i, ∃ hi : i < (srcsetCandidates "a 1x, b 2x".data).length,
      ((srcsetCandidates "a 1x, b 2x".data)[i]).url = "b".data ∧
      (∀ j, ∀ hj : j < (srcsetCandidates "a 1x, b 2x".data).length,
        scoreLE ((srcsetCandidates "a 1x, b 2x".data)[j]).score
          ((srcsetCandidates "a 1x, b 2x".data)[i]).score) ∧
      (∀ j, j < i → ∀ hj : j < (srcsetCandidates "a 1x, b 2x".data).length,
        scoreLT ((srcsetCandidates "a 1x, b 2x".data)[j]).score
          ((srcsetCandidates "a 1x, b 2x".data)[i]).score) :=
  ⟨by decide,
    chooseBestSrcFromSrcset_spec.2.2.2.2 "a 1x, b 2x".data (by decide) "b".data (by decide)⟩

example : postProcessMarkdown "a\n\n\n\nb".data = "a\n\nb".data := by decide

example : postProcessMarkdown "“Hello” ‘world’".data =
    "\"Hello\" 'world'".data := by decide

example : postProcessMarkdown "hello world".data = "hello world".data := by decide

example : postProcessMarkdown "hello   \nworld   ".data = "hello\nworld".data := by decide

/-- C2 counterexample input: whitespace-only lines hide a newline run from the collapse
step, and the later per-line right-trim exposes it. -/
theorem postProcessMarkdown_not_idem :
    postProcessMarkdown (postProcessMarkdown "a\n \n \nb".data) ≠
      postProcessMarkdown "a\n \n \nb".data := by decide

theorem splitOnChar_ne_nil (sep : Char) (l : List Char) : splitOnChar sep l ≠ [] := by
  induction l with
  | nil => simp [splitOnChar]
  | cons a t ih =>
    rw [splitOnChar]
    split
    · simp
    · intro h
      exact ih (List.modifyHead_eq_nil_iff.mp h)

theorem splitOnChar_no_sep (sep : Char) (l : List Char) :
    ∀ h ∈ splitOnChar sep l, sep ∉ h := by
  induction l with
  | nil =>
    intro h hh
    rw [splitOnChar, List.mem_singleton] at hh
    subst hh
    simp
  | cons a t ih =>
    intro h hh
    rw [splitOnChar] at hh
    split at hh
    · rcases List.mem_cons.mp hh with h1 | h1
      · subst h1; simp
      · exact ih h h1
    · rename_i ha
      cases hsp : splitOnChar sep t with
      | nil => exact absurd hsp (splitOnChar_ne_nil sep t)
      | cons h0 rest =>
        rw [hsp] at hh
        simp only [List.modifyHead_cons] at hh
        rcases List.mem_cons.mp hh with h1 | h1
        · subst h1
          intro hmem
          rcases List.mem_cons.mp hmem with h2 | h2
          · exact ha h2.symm
          · exact ih h0 (hsp ▸ List.mem_cons_self h0 rest) h2
        · exact ih h (hsp ▸ List.mem_cons_of_mem h0 h1)

theorem joinWith_splitOnChar (sep : Char) (l : List Char) :
    joinWith sep (splitOnChar sep l) = l := by
  induction l with
  | nil => rfl
  | cons a t ih =>
    rw [splitOnChar]
    split
    · rename_i ha
      subst ha
      rw [joinWith_cons _ _ _ (splitOnChar_ne_nil a t), List.nil_append, ih]
    · rw [joinWith_modifyHead _ _ _ (splitOnChar_ne_nil sep t), ih]

theorem splitOnChar_no_sep_self (sep : Char) (l : List Char) (h : sep ∉ l) :
    splitOnChar sep l = [l] := by
  induction l with
  | nil => rfl
  | cons c cs ih =>
    have hc : c ≠ sep := fun hc => h (hc ▸ List.mem_cons_self c cs)
    rw [splitOnChar, if_neg hc, ih (fun hm => h (List.mem_cons_of_mem c hm))]
    rfl

theorem splitOnChar_line_append (sep : Char) (l r : List Char) (hl : sep ∉ l) :
    splitOnChar sep (l ++ sep :: r) = l :: splitOnChar sep r := by
  induction l with
  | nil =>
    rw [List.nil_append, splitOnChar, if_pos rfl]
  | cons c cs ih =>
    have hc : c ≠ sep := fun hc => hl (hc ▸ List.mem_cons_self c cs)
    rw [List.cons_append, splitOnChar, if_neg hc,
      ih (fun hm => hl (List.mem_cons_of_mem c hm))]
    rfl

theorem splitOnChar_joinWith (sep : Char) (ls : List (List Char))
    (h : ∀ l ∈ ls, sep ∉ l) (hne : ls ≠ []) :
    splitOnChar sep (joinWith sep ls) = ls := by
  induction ls with
  | nil => exact absurd rfl hne
  | cons l rest ih =>
    have hl : sep ∉ l := h l (List.mem_cons_self l rest)
    cases rest with
    | nil => exact splitOnChar_no_sep_self sep l hl
    | cons l2 rest2 =>
      rw [joinWith_cons _ _ _ (by simp), splitOnChar_line_append sep l _ hl,
        ih (fun x hx => h x (List.mem_cons_of_mem l hx)) (by simp)]

theorem jsTrimEnd_getLast_not_ws (h : List Char) :
    ∀ c, (jsTrimEnd h).getLast? = some c → isJsWhitespace c = false := by
  intro c hc
  unfold jsTrimEnd at hc
  rw [List.getLast?_reverse] at hc
  exact head?_dropWhile_not _ _ c hc

theorem jsTrimEnd_idem (h : List Char) : jsTrimEnd (jsTrimEnd h) = jsTrimEnd h := by
  unfold jsTrimEnd
  rw [List.reverse_reverse, dropWhile_dropWhile]

theorem mem_of_mem_jsTrimEnd (h : List Char) (c : Char) (hc : c ∈ jsTrimEnd h) : c ∈ h := by
  unfold jsTrimEnd at hc
  rw [List.mem_reverse] at hc
  have := mem_of_mem_dropWhile _ _ _ hc
  rwa [List.mem_reverse] at this

theorem nl_not_mem_jsTrimEnd (h : List Char) (hn : '\n' ∉ h) : '\n' ∉ jsTrimEnd h :=
  fun hm => hn (mem_of_mem_jsTrimEnd h _ hm)

theorem trimEndLines_idem (l : List Char) : trimEndLines (trimEndLines l) = trimEndLines l := by
  unfold trimEndLines
  rw [splitOnChar_joinWith '\n' _
    (by
      intro x hx
      obtain ⟨h0, hh0, rfl⟩ := List.mem_map.mp hx
      exact nl_not_mem_jsTrimEnd h0 (splitOnChar_no_sep '\n' l h0 hh0))
    (by
      intro hmap
      exact splitOnChar_ne_nil '\n' l (List.map_eq_nil_iff.mp hmap))]
  rw [List.map_map]
  congr 1
  apply List.map_congr_left
  intro a _
  exact jsTrimEnd_idem a

theorem mem_trimEndLines (l : List Char) (c : Char) (hc : c ∈ trimEndLines l) :
    c ∈ l ∨ c = '\n' := by
  unfold trimEndLines at hc
  by_cases hnl : c = '\n'
  · exact Or.inr hnl
  · left
    have hjoin : ∀ (ls : List (List Char)), c ∈ joinWith '\n' ls → ∃ x ∈ ls, c ∈ x := by
      intro ls
      induction ls with
      | nil => intro h; simp [joinWith] at h
      | cons x rest ih =>
        intro h
        cases rest with
        | nil => exact ⟨x, List.mem_cons_self x [], h⟩
        | cons y rest2 =>
          rw [joinWith_cons _ _ _ (by simp)] at h
          rcases List.mem_append.mp h with h1 | h1
          · exact ⟨x, List.mem_cons_self x _, h1⟩
          · rcases List.mem_cons.mp h1 with h2 | h2
            · exact absurd h2 hnl
            · obtain ⟨z, hz, hcz⟩ := ih h2
              exact ⟨z, List.mem_cons_of_mem x hz, hcz⟩
    obtain ⟨x, hx, hcx⟩ := hjoin _ hc
    obtain ⟨h0, hh0, rfl⟩ := List.mem_map.mp hx
    have hch0 := mem_of_mem_jsTrimEnd h0 c hcx
    have : c ∈ joinWith '\n' (splitOnChar '\n' l) := by
      have hrec : ∀ (ls : List (List Char)) (x : List Char), x ∈ ls → c ∈ x →
          c ∈ joinWith '\n' ls := by
        intro ls
        induction ls with
        | nil => intro x hx2 _; simp at hx2
        | cons w rest ih =>
          intro x hx2 hcx2
          cases rest with
          | nil =>
            rw [List.mem_singleton] at hx2
            subst hx2
            exact hcx2
          | cons y rest2 =>
            rw [joinWith_cons _ _ _ (by simp)]
            rcases List.mem_cons.mp hx2 with h2 | h2
            · subst h2
              exact List.mem_append.mpr (Or.inl hcx2)
            · exact List.mem_append.mpr
                (Or.inr (List.mem_cons_of_mem _ (ih x h2 hcx2)))
      exact hrec _ h0 hh0 hch0
    rwa [joinWith_splitOnChar] at this

theorem getLast?_cons_of_ne_nil {α : Type} (a : α) (t : List α) (h : t ≠ []) :
    (a :: t).getLast? = t.getLast? := by
  cases t with
  | nil => exact absurd rfl h
  | cons b u => exact List.getLast?_cons_cons

theorem chain_dropWhile {R : Char → Char → Prop} (p : Char → Bool) (l : List Char)
    (h : List.Chain' R l) : List.Chain' R (l.dropWhile p) := by
  have hd := List.takeWhile_append_dropWhile p l
  rw [← hd] at h
  exact (List.chain'_append.mp h).2.1

theorem jsTrimEnd_append_eq (l : List Char) :
    jsTrimEnd l ++ (l.reverse.takeWhile isJsWhitespace).reverse = l := by
  unfold jsTrimEnd
  rw [← List.reverse_append, List.takeWhile_append_dropWhile, List.reverse_reverse]

theorem chain_jsTrimEnd {R : Char → Char → Prop} (l : List Char)
    (h : List.Chain' R l) : List.Chain' R (jsTrimEnd l) := by
  rw [← jsTrimEnd_append_eq l] at h
  exact (List.chain'_append.mp h).1

theorem padFree_jsTrim (l : List Char) (h : List.Chain' PadRel l) :
    PadFreeP (jsTrim l) := by
  constructor
  · unfold jsTrim
    apply chain_jsTrimEnd
    unfold jsTrimStart
    exact chain_dropWhile _ _ h
  · intro c hc
    have := jsTrim_getLast_not_ws l c hc
    simp [isPad, this]

theorem jsTrimEnd_eq_nil_iff (h : List Char) :
    jsTrimEnd h = [] ↔ ∀ x ∈ h, isJsWhitespace x = true := by
  unfold jsTrimEnd
  constructor
  · intro he x hx
    rw [List.reverse_eq_nil_iff, List.dropWhile_eq_nil_iff] at he
    exact he x (List.mem_reverse.mpr hx)
  · intro hall
    rw [List.reverse_eq_nil_iff, List.dropWhile_eq_nil_iff]
    intro x hx
    exact hall x (List.mem_reverse.mp hx)

theorem trimEndLines_nil : trimEndLines [] = [] := rfl

theorem trimEndLines_nl (t : List Char) :
    trimEndLines ('\n' :: t) = '\n' :: trimEndLines t := by
  unfold trimEndLines
  rw [splitOnChar, if_pos rfl, List.map_cons,
    joinWith_cons _ _ _ (by
      intro hmap
      exact splitOnChar_ne_nil '\n' t (List.map_eq_nil_iff.mp hmap))]
  rfl

theorem mem_of_getLast?_eq {α : Type} {l : List α} {a : α} (h : l.getLast? = some a) :
    a ∈ l :=
  List.mem_of_mem_getLast? (by rw [h]; rfl)

theorem exists_getLast? {α : Type} (l : List α) (h : l ≠ []) : ∃ d, l.getLast? = some d := by
  rw [List.getLast?_eq_getLast l h]
  exact ⟨_, rfl⟩

theorem trimEndLines_eq_self (l : List Char) (hpf : PadFreeP l) : trimEndLines l = l := by
  induction l with
  | nil => rfl
  | cons c t ih =>
    obtain ⟨hch, hlast⟩ := hpf
    have htail : PadFreeP t := by
      refine ⟨hch.tail, ?_⟩
      intro c' hc'
      have ht : t ≠ [] := by
        intro h
        rw [h] at hc'
        simp at hc'
      exact hlast c' (by rwa [getLast?_cons_of_ne_nil _ _ ht])
    by_cases hn : c = '\n'
    · subst hn
      rw [trimEndLines_nl]
      rw [ih htail]
    · cases hsp : splitOnChar '\n' t with
      | nil => exact absurd hsp (splitOnChar_ne_nil '\n' t)
      | cons h0 ts =>
        have hdec : joinWith '\n' (h0 :: ts) = t := by
          rw [← hsp, joinWith_splitOnChar]
        have hnoseph0 : '\n' ∉ h0 :=
          splitOnChar_no_sep '\n' t h0 (hsp ▸ List.mem_cons_self h0 ts)
        have hcond : ¬(jsTrimEnd h0 = [] ∧ isJsWhitespace c = true) := by
          intro ⟨hte, hwc⟩
          have hallws : ∀ x ∈ h0, isJsWhitespace x = true := (jsTrimEnd_eq_nil_iff h0).mp hte
          have hpadc : isPad c = true := by simp [isPad, hwc, hn]
          have hpadlast : ∀ d, (c :: h0).getLast? = some d → isPad d = true := by
            intro d hd
            cases hh0 : h0 with
            | nil =>
              subst hh0
              simp only [List.getLast?_singleton, Option.some.injEq] at hd
              rw [← hd]
              exact hpadc
            | cons e es =>
              rw [hh0] at hd
              rw [getLast?_cons_of_ne_nil _ _ (by simp)] at hd
              have hdm : d ∈ h0 := by
                rw [hh0]
                exact mem_of_getLast?_eq hd
              have hws := hallws d hdm
              have hdn : d ≠ '\n' := fun hh => hnoseph0 (hh ▸ hdm)
              simp [isPad, hws, hdn]
          cases hts : ts with
          | nil =>
            have htl : t = h0 := by
              rw [hts] at hdec
              exact hdec.symm
            obtain ⟨d, hd⟩ := exists_getLast? (c :: t) (by simp)
            have hpad : isPad d = true := by
              apply hpadlast
              rw [← htl]
              exact hd
            have := hlast d hd
            rw [this] at hpad
            exact absurd hpad (by simp)
          | cons l2 rest2 =>
            have htl : t = h0 ++ '\n' :: joinWith '\n' (l2 :: rest2) := by
              rw [hts] at hdec
              rw [joinWith_cons _ _ _ (by simp)] at hdec
              exact hdec.symm
            have hch2 : List.Chain' PadRel
                ((c :: h0) ++ '\n' :: joinWith '\n' (l2 :: rest2)) := by
              rw [List.cons_append, ← htl]
              exact hch
            obtain ⟨_, _, hbound⟩ := List.chain'_append.mp hch2
            obtain ⟨d, hd⟩ := exists_getLast? (c :: h0) (by simp)
            have hrel := hbound d (by rw [hd]; rfl) '\n' (by simp)
            have := hrel rfl
            rw [hpadlast d hd] at this
            exact absurd this (by simp)
        have hTcons : trimEndLines (c :: t) = c :: trimEndLines t := by
          unfold trimEndLines
          rw [splitOnChar, if_neg hn, hsp]
          simp only [List.modifyHead_cons, List.map_cons]
          have hte_cons : jsTrimEnd (c :: h0) = c :: jsTrimEnd h0 := by
            rw [jsTrimEnd_cons]
            by_cases hte : jsTrimEnd h0 = []
            · rw [if_pos hte]
              have hwc : isJsWhitespace c = false := by
                by_cases hw : isJsWhitespace c = true
                · exact absurd ⟨hte, hw⟩ hcond
                · simpa using hw
              rw [if_neg (by simp [hwc]), hte]
            · rw [if_neg hte]
          rw [hte_cons]
          cases ts with
          | nil => rfl
          | cons t2 rest2 =>
            rw [List.map_cons,
              joinWith_cons '\n' (c :: jsTrimEnd h0) (jsTrimEnd t2 :: List.map jsTrimEnd rest2)
                (by simp),
              joinWith_cons '\n' (jsTrimEnd h0) (jsTrimEnd t2 :: List.map jsTrimEnd rest2)
                (by simp)]
            rfl
        rw [hTcons, ih htail]

theorem chain_padRel_of_no_nl (x : List Char) (h : '\n' ∉ x) : List.Chain' PadRel x := by
  induction x with
  | nil => exact List.chain'_nil
  | cons a t ih =>
    rw [List.chain'_cons']
    refine ⟨?_, ih (fun hm => h (List.mem_cons_of_mem a hm))⟩
    intro y hy hyn
    exfalso
    apply h
    subst hyn
    exact List.mem_cons_of_mem a (List.mem_of_mem_head? hy)

theorem padFree_joinWith (ls : List (List Char))
    (h : ∀ x ∈ ls, '\n' ∉ x ∧ ∀ c, x.getLast? = some c → isJsWhitespace c = false) :
    PadFreeP (joinWith '\n' ls) := by
  induction ls with
  | nil => exact ⟨List.chain'_nil, by simp [joinWith]⟩
  | cons x rest ih =>
    obtain ⟨hx1, hx2⟩ := h x (List.mem_cons_self x rest)
    have hlastpad : ∀ c, x.getLast? = some c → isPad c = false := by
      intro c hc
      simp [isPad, hx2 c hc]
    cases rest with
    | nil =>
      refine ⟨chain_padRel_of_no_nl x hx1, ?_⟩
      intro c hc
      exact hlastpad c hc
    | cons y rest2 =>
      obtain ⟨ihc, ihl⟩ := ih (fun z hz => h z (List.mem_cons_of_mem x hz))
      rw [joinWith_cons _ _ _ (by simp)]
      constructor
      · rw [List.chain'_append]
        refine ⟨chain_padRel_of_no_nl x hx1, ?_, ?_⟩
        · rw [List.chain'_cons']
          refine ⟨?_, ihc⟩
          intro z hz hzn
          simp [isPad]
        · intro a ha b hb
          simp only [List.head?_cons, Option.mem_def, Option.some.injEq] at hb
          intro _
          exact hlastpad a (Option.mem_def.mp ha)
      · intro c hc
        rw [List.getLast?_append_of_ne_nil _ (by simp)] at hc
        cases hj : joinWith '\n' (y :: rest2) with
        | nil =>
          rw [hj] at hc
          simp only [List.getLast?_singleton, Option.some.injEq] at hc
          rw [← hc]
          simp [isPad]
        | cons w ws =>
          rw [hj] at hc
          rw [getLast?_cons_of_ne_nil _ _ (by simp)] at hc
          apply ihl
          rw [hj]
          exact hc

theorem padFree_trimEndLines (l : List Char) : PadFreeP (trimEndLines l) := by
  unfold trimEndLines
  apply padFree_joinWith
  intro x hx
  obtain ⟨h0, hh0, rfl⟩ := List.mem_map.mp hx
  exact ⟨nl_not_mem_jsTrimEnd h0 (splitOnChar_no_sep '\n' l h0 hh0),
    jsTrimEnd_getLast_not_ws h0⟩

theorem mem_collapseNLAux (l : List Char) :
    ∀ k c, c ∈ collapseNLAux k l → c ∈ l ∨ c = '\n' := by
  induction l with
  | nil =>
    intro k c hc
    rw [collapseNLAux] at hc
    exact Or.inr (List.eq_of_mem_replicate hc)
  | cons a t ih =>
    intro k c hc
    rw [collapseNLAux] at hc
    split at hc
    · rcases ih (k + 1) c hc with h | h
      · exact Or.inl (List.mem_cons_of_mem a h)
      · exact Or.inr h
    · rcases List.mem_append.mp hc with h | h
      · exact Or.inr (List.eq_of_mem_replicate h)
      · rcases List.mem_cons.mp h with h1 | h1
        · exact Or.inl (h1 ▸ List.mem_cons_self a t)
        · rcases ih 0 c h1 with h2 | h2
          · exact Or.inl (List.mem_cons_of_mem a h2)
          · exact Or.inr h2

theorem collapseNLAux_ne_nil (l : List Char) :
    ∀ k, l ≠ [] ∨ 1 ≤ k → collapseNLAux k l ≠ [] := by
  induction l with
  | nil =>
    intro k hk
    rcases hk with h | h
    · exact absurd rfl h
    · rw [collapseNLAux]
      simp only [ne_eq, List.replicate_eq_nil_iff]
      omega
  | cons a t ih =>
    intro k _
    rw [collapseNLAux]
    split
    · exact ih (k + 1) (Or.inr (by omega))
    · simp

theorem collapseNLAux_head_pos (l : List Char) :
    ∀ k, 1 ≤ k → (collapseNLAux k l).head? = some '\n' := by
  induction l with
  | nil =>
    intro k hk
    rw [collapseNLAux]
    have : min k 2 = 1 ∨ min k 2 = 2 := by omega
    rcases this with h | h <;> rw [h] <;> rfl
  | cons a t ih =>
    intro k hk
    rw [collapseNLAux]
    split
    · exact ih (k + 1) (by omega)
    · have : min k 2 = 1 ∨ min k 2 = 2 := by omega
      rcases this with h | h <;> rw [h] <;> rfl

theorem collapseNL_head (l : List Char) (h : l ≠ []) :
    (collapseNL l).head? = l.head? := by
  cases l with
  | nil => exact absurd rfl h
  | cons a t =>
    rw [collapseNL, collapseNLAux]
    split
    · rename_i ha
      subst ha
      rw [collapseNLAux_head_pos t 1 (by omega)]
      rfl
    · rfl

theorem collapseNLAux_getLast (l : List Char) :
    ∀ k c, l.getLast? = some c → c ≠ '\n' → (collapseNLAux k l).getLast? = some c := by
  induction l with
  | nil =>
    intro k c hc
    simp at hc
  | cons a t ih =>
    intro k c hc hcn
    cases t with
    | nil =>
      simp only [List.getLast?_singleton, Option.some.injEq] at hc
      subst hc
      rw [collapseNLAux]
      split
      · rename_i ha
        exact absurd ha hcn
      · rw [collapseNLAux, List.getLast?_append_of_ne_nil _ (by simp)]
        rfl
    | cons b u =>
      rw [getLast?_cons_of_ne_nil _ _ (by simp)] at hc
      rw [collapseNLAux]
      split
      · exact ih (k + 1) c hc hcn
      · rw [List.getLast?_append_of_ne_nil _ (by simp),
          getLast?_cons_of_ne_nil _ _
            (collapseNLAux_ne_nil (b :: u) 0 (Or.inl (by simp)))]
        exact ih 0 c hc hcn

theorem collapseNLAux_eq_of_ge_two (l : List Char) :
    ∀ k k', 2 ≤ k → 2 ≤ k' → collapseNLAux k l = collapseNLAux k' l := by
  induction l with
  | nil =>
    intro k k' hk hk'
    rw [collapseNLAux, collapseNLAux]
    have h1 : min k 2 = 2 := by omega
    have h2 : min k' 2 = 2 := by omega
    rw [h1, h2]
  | cons a t ih =>
    intro k k' hk hk'
    rw [collapseNLAux, collapseNLAux]
    split
    · exact ih (k + 1) (k' + 1) (by omega) (by omega)
    · have h1 : min k 2 = 2 := by omega
      have h2 : min k' 2 = 2 := by omega
      rw [h1, h2]

theorem collapseNLAux_replicate_append (m : Nat) :
    ∀ (j : Nat) (l : List Char),
      collapseNLAux j (List.replicate m '\n' ++ l) = collapseNLAux (j + m) l := by
  induction m with
  | zero => intro j l; simp
  | succ m2 ih =>
    intro j l
    rw [List.replicate_succ, List.cons_append, collapseNLAux, if_pos rfl, ih]
    congr 1
    omega

theorem collapseNLAux_collapse (l : List Char) :
    ∀ k, collapseNLAux 0 (collapseNLAux k l) = collapseNLAux (min k 2) l := by
  induction l with
  | nil =>
    intro k
    rw [collapseNLAux]
    have : min k 2 = 0 ∨ min k 2 = 1 ∨ min k 2 = 2 := by omega
    rcases this with h | h | h <;> rw [h]
    · rfl
    · rfl
    · rfl
  | cons a t ih =>
    intro k
    by_cases ha : a = '\n'
    · subst ha
      rw [collapseNLAux, if_pos rfl, ih (k + 1)]
      rw [collapseNLAux, if_pos rfl]
      by_cases hk : 2 ≤ k
      · have h1 : min (k + 1) 2 = 2 := by omega
        rw [h1]
        exact collapseNLAux_eq_of_ge_two t 2 (min k 2 + 1) (by omega) (by omega)
      · have h1 : min (k + 1) 2 = min k 2 + 1 := by omega
        rw [h1]
    · rw [collapseNLAux, if_neg ha]
      rw [collapseNLAux_replicate_append (min k 2) 0 _]
      rw [collapseNLAux, if_neg ha, ih 0]
      rw [collapseNLAux, if_neg ha]
      have hmin : min (min k 2) 2 = min k 2 := by omega
      have hzero : min 0 2 = 0 := by omega
      rw [Nat.zero_add, hmin, hzero]

theorem collapseNL_idem (l : List Char) : collapseNL (collapseNL l) = collapseNL l := by
  unfold collapseNL
  rw [collapseNLAux_collapse l 0]
  norm_num

theorem padFree_collapseNLAux (l : List Char) :
    ∀ k, PadFreeP l → PadFreeP (collapseNLAux k l) := by
  induction l with
  | nil =>
    intro k _
    rw [collapseNLAux]
    have : min k 2 = 0 ∨ min k 2 = 1 ∨ min k 2 = 2 := by omega
    rcases this with h | h | h <;> rw [h]
    · exact ⟨List.chain'_nil, by simp⟩
    · refine ⟨List.chain'_singleton _, ?_⟩
      intro c hc
      simp only [List.replicate_one, List.getLast?_singleton, Option.some.injEq] at hc
      rw [← hc]
      rfl
    · refine ⟨?_, ?_⟩
      · rw [show List.replicate 2 '\n' = ['\n', '\n'] from rfl, List.chain'_cons]
        refine ⟨?_, List.chain'_singleton _⟩
        intro _
        rfl
      · intro c hc
        rw [show List.replicate 2 '\n' = ['\n', '\n'] from rfl] at hc
        rw [getLast?_cons_of_ne_nil _ _ (by simp)] at hc
        simp only [List.getLast?_singleton, Option.some.injEq] at hc
        rw [← hc]
        rfl
  | cons a t ih =>
    intro k hpf
    obtain ⟨hch, hlast⟩ := hpf
    have htail : PadFreeP t := by
      refine ⟨hch.tail, ?_⟩
      intro c' hc'
      have ht : t ≠ [] := by
        intro h
        rw [h] at hc'
        simp at hc'
      exact hlast c' (by rwa [getLast?_cons_of_ne_nil _ _ ht])
    rw [collapseNLAux]
    split
    · exact ih (k + 1) htail
    · rename_i ha
      obtain ⟨ihc, ihl⟩ := ih 0 htail
      have hchain2 : List.Chain' PadRel (a :: collapseNLAux 0 t) := by
        rw [List.chain'_cons']
        refine ⟨?_, ihc⟩
        intro y hy hyn
        subst hyn
        cases ht : t with
        | nil =>
          rw [ht] at hy
          simp [collapseNLAux] at hy
        | cons b u =>
          have hhead : (collapseNLAux 0 t).head? = t.head? := by
            rw [← collapseNL]
            exact collapseNL_head t (by rw [ht]; simp)
          rw [hhead, ht] at hy
          simp only [List.head?_cons, Option.mem_def, Option.some.injEq] at hy
          have hrel := (List.chain'_cons'.mp hch).1 b (by rw [ht]; rfl)
          rw [hy] at hrel
          exact hrel rfl
      constructor
      · rw [List.chain'_append]
        refine ⟨?_, hchain2, ?_⟩
        · clear hchain2 ihc ihl
          generalize min k 2 = n
          induction n with
          | zero => exact List.chain'_nil
          | succ n2 ihn =>
            rw [List.replicate_succ, List.chain'_cons']
            exact ⟨fun y _ _ => rfl, ihn⟩
        · intro x hx y hy _
          have : x = '\n' := List.eq_of_mem_replicate (mem_of_getLast?_eq (Option.mem_def.mp hx))
          rw [this]
          rfl
      · intro c hc
        rw [List.getLast?_append_of_ne_nil _ (by simp)] at hc
        cases hct : collapseNLAux 0 t with
        | nil =>
          rw [hct] at hc
          simp only [List.getLast?_singleton, Option.some.injEq] at hc
          have ht : t = [] := by
            by_contra hne
            exact collapseNLAux_ne_nil t 0 (Or.inl hne) hct
          apply hlast
          rw [ht, ← hc]
          rfl
        | cons w ws =>
          rw [hct] at hc
          rw [getLast?_cons_of_ne_nil _ _ (by simp)] at hc
          apply ihl
          rw [hct]
          exact hc

theorem map_fix_of_mem {f : Char → Char} (l : List Char) (h : ∀ c ∈ l, f c = c) :
    l.map f = l := by
  rw [List.map_congr_left h]
  simp

theorem charmap_fix (c0 : Char) :
    q2Map (nbspMap (q1Map (q2Map c0))) = nbspMap (q1Map (q2Map c0)) ∧
    q1Map (nbspMap (q1Map (q2Map c0))) = nbspMap (q1Map (q2Map c0)) ∧
    nbspMap (nbspMap (q1Map (q2Map c0))) = nbspMap (q1Map (q2Map c0)) := by
  by_cases h2 : c0 = '“' ∨ c0 = '”'
  · rcases h2 with h | h <;> subst h <;> decide
  · by_cases h1 : c0 = '‘' ∨ c0 = '’'
    · rcases h1 with h | h <;> subst h <;> decide
    · by_cases hn : c0 = ' '
      · subst hn
        decide
      · simp [q2Map, q1Map, nbspMap, h2, h1, hn]

theorem ppInv_output (x : List Char) : PPInv (postProcessMarkdown x) := by
  refine ⟨?_, ?_, jsTrim_idem _⟩
  · intro c hc
    unfold postProcessMarkdown at hc
    have hc1 := mem_of_mem_jsTrim _ _ hc
    rcases mem_trimEndLines _ _ hc1 with hc2 | hc2
    · rw [List.map_map, List.map_map] at hc2
      obtain ⟨c0, _, rfl⟩ := List.mem_map.mp hc2
      exact charmap_fix c0
    · subst hc2
      refine ⟨by decide, by decide, by decide⟩
  · unfold postProcessMarkdown
    exact padFree_jsTrim _ (padFree_trimEndLines _).1

theorem jsTrim_collapseNL_of_trimmed (y : List Char) (ht : jsTrim y = y) :
    jsTrim (collapseNL y) = collapseNL y := by
  cases hy : y with
  | nil => rfl
  | cons a t =>
    apply jsTrim_eq_self
    · intro c hc
      rw [collapseNL_head _ (by simp)] at hc
      apply jsTrim_head_not_ws y c
      rw [ht, hy]
      exact hc
    · intro c hc
      obtain ⟨d, hd⟩ := exists_getLast? (a :: t) (by simp)
      have hdws : isJsWhitespace d = false := by
        apply jsTrim_getLast_not_ws y d
        rw [ht, hy]
        exact hd
      have hdn : d ≠ '\n' := by
        intro he
        subst he
        simp [isJsWhitespace] at hdws
      have hlg := collapseNLAux_getLast (a :: t) 0 d hd hdn
      rw [collapseNL] at hc
      rw [hlg] at hc
      injection hc with hc2
      rw [← hc2]
      exact hdws

theorem ppm_eq_collapseNL (y : List Char) (hy : PPInv y) :
    postProcessMarkdown y = collapseNL y := by
  obtain ⟨hmaps, hpad, htrim⟩ := hy
  have hmem : ∀ c ∈ collapseNL y, q2Map c = c ∧ q1Map c = c ∧ nbspMap c = c := by
    intro c hc
    rcases mem_collapseNLAux y 0 c hc with h | h
    · exact hmaps c h
    · subst h
      exact ⟨by decide, by decide, by decide⟩
  unfold postProcessMarkdown
  rw [map_fix_of_mem _ (fun c hc => (hmem c hc).1)]
  rw [map_fix_of_mem _ (fun c hc => (hmem c hc).2.1)]
  rw [map_fix_of_mem _ (fun c hc => (hmem c hc).2.2)]
  rw [trimEndLines_eq_self (collapseNL y) (padFree_collapseNLAux y 0 hpad)]
  exact jsTrim_collapseNL_of_trimmed y htrim

theorem ppInv_collapseNL (y : List Char) (hy : PPInv y) : PPInv (collapseNL y) := by
  obtain ⟨hmaps, hpad, htrim⟩ := hy
  refine ⟨?_, padFree_collapseNLAux y 0 hpad, jsTrim_collapseNL_of_trimmed y htrim⟩
  intro c hc
  rcases mem_collapseNLAux y 0 c hc with h | h
  · exact hmaps c h
  · subst h
    exact ⟨by decide, by decide, by decide⟩

/-- C2 (amended): `postProcessMarkdown` is not idempotent — right-trimming
whitespace-only lines can create a fresh 3-newline run, as `"a\n \n \nb"` shows — but a
second application reaches a fixed point: `f (f (f x)) = f (f x)` for every string. -/
theorem postProcessMarkdown_twice_fixed (x : List Char) :
    postProcessMarkdown (postProcessMarkdown (postProcessMarkdown x)) =
      postProcessMarkdown (postProcessMarkdown x) := by
  have hA : PPInv (postProcessMarkdown x) := ppInv_output x
  rw [ppm_eq_collapseNL _ hA]
  rw [ppm_eq_collapseNL _ (ppInv_collapseNL _ hA), collapseNL_idem]

example : natChars 0 = ['0'] := by decide

example : natChars 7 = ['7'] := by decide

example : natChars 1024 = ['1', '0', '2', '4'] := by decide

theorem natCharsAux_fuel_irrel (n : Nat) :
    ∀ f f', n ≤ f → n ≤ f' → natCharsAux (f + 1) n = natCharsAux (f' + 1) n := by
  induction n using Nat.strong_induction_on with
  | _ n ih =>
    intro f f' hf hf'
    by_cases h10 : n < 10
    · rw [natCharsAux, natCharsAux, if_pos h10, if_pos h10]
    · rw [natCharsAux, natCharsAux, if_neg h10, if_neg h10]
      obtain ⟨f2, rfl⟩ : ∃ f2, f = f2 + 1 := ⟨f - 1, by omega⟩
      obtain ⟨f3, rfl⟩ : ∃ f3, f' = f3 + 1 := ⟨f' - 1, by omega⟩
      rw [ih (n / 10) (by omega) f2 f3 (by omega) (by omega)]

theorem natChars_step (n : Nat) (h : ¬n < 10) :
    natChars n = natChars (n / 10) ++ [Char.ofNat (48 + n % 10)] := by
  rw [natChars, natCharsAux, if_neg h]
  have h1 : natCharsAux n (n / 10) = natCharsAux ((n - 1) + 1) (n / 10) := by
    rw [show (n - 1) + 1 = n by omega]
  rw [h1, natCharsAux_fuel_irrel (n / 10) (n - 1) (n / 10) (by omega) le_rfl]
  rfl

theorem natChars_digits (n : Nat) : ∀ c ∈ natChars n, 48 ≤ c.toNat ∧ c.toNat ≤ 57 := by
  induction n using Nat.strong_induction_on with
  | _ n ih =>
    intro c hc
    by_cases h10 : n < 10
    · rw [natChars, natCharsAux, if_pos h10] at hc
      rw [List.mem_singleton] at hc
      subst hc
      rw [toNat_ofNat_of_lt (by omega)]
      omega
    · rw [natChars_step n h10] at hc
      rcases List.mem_append.mp hc with h | h
      · exact ih (n / 10) (by omega) c h
      · rw [List.mem_singleton] at h
        subst h
        rw [toNat_ofNat_of_lt (by omega)]
        have := Nat.mod_lt n (show 0 < 10 by omega)
        omega

theorem natChars_ne_nil (n : Nat) : natChars n ≠ [] := by
  by_cases h10 : n < 10
  · rw [natChars, natCharsAux, if_pos h10]
    simp
  · rw [natChars_step n h10]
    simp

theorem digitChar_inj (a b : Nat) (ha : a < 10) (hb : b < 10)
    (h : Char.ofNat (48 + a) = Char.ofNat (48 + b)) : a = b := by
  have := congrArg Char.toNat h
  rw [toNat_ofNat_of_lt (by omega), toNat_ofNat_of_lt (by omega)] at this
  omega

theorem natChars_inj (a : Nat) : ∀ b, natChars a = natChars b → a = b := by
  induction a using Nat.strong_induction_on with
  | _ a ih =>
    intro b h
    by_cases ha : a < 10
    · by_cases hb : b < 10
      · rw [natChars, natCharsAux, if_pos ha, natChars, natCharsAux, if_pos hb] at h
        simp only [List.cons.injEq, and_true] at h
        exact digitChar_inj a b ha hb h
      · rw [natChars, natCharsAux, if_pos ha, natChars_step b hb] at h
        have hlen := congrArg List.length h
        simp only [List.length_singleton, List.length_append] at hlen
        have := natChars_ne_nil (b / 10)
        have hpos : 0 < (natChars (b / 10)).length := List.length_pos.mpr this
        omega
    · by_cases hb : b < 10
      · rw [natChars_step a ha,
          show natChars b = [Char.ofNat (48 + b)] from by
            rw [natChars, natCharsAux, if_pos hb]] at h
        have hlen := congrArg List.length h
        simp only [List.length_singleton, List.length_append] at hlen
        have := natChars_ne_nil (a / 10)
        have hpos : 0 < (natChars (a / 10)).length := List.length_pos.mpr this
        omega
      · rw [natChars_step a ha, natChars_step b hb] at h
        have := List.append_inj' h (by simp)
        obtain ⟨h1, h2⟩ := this
        simp only [List.cons.injEq, and_true] at h2
        have hmod := digitChar_inj (a % 10) (b % 10)
          (Nat.mod_lt a (by omega)) (Nat.mod_lt b (by omega)) h2
        have hdiv := ih (a / 10) (by omega) (b / 10) h1
        omega

example :
    generateTOC (.elem "div" [] [.elem "h1" [] [.text "Intro".data],
      .elem "h2" [] [.text "Intro".data]]) =
      "- [Intro](#intro)\n  - [Intro](#intro-1)".data := by decide

example :
    generateTOC (.elem "div" [] [.elem "h2" [("id", "kept".data)] [.text "T".data]]) =
      "  - [T](#kept)".data := by decide

theorem mapLookup_set_self (m : List (List Char × Nat)) (k : List Char) (v : Nat) :
    mapLookup (mapSet m k v) k = some v := by
  simp [mapLookup, mapSet, List.find?]

theorem mapLookup_set_other (m : List (List Char × Nat)) (k k2 : List Char) (v : Nat)
    (h : k2 ≠ k) : mapLookup (mapSet m k v) k2 = mapLookup m k2 := by
  simp only [mapLookup, mapSet, List.find?]
  rw [show (k == k2) = false from beq_eq_false_iff_ne.mpr (fun hh => h hh.symm)]

theorem tocInv_nil : TocInv [] [] := by
  intro b
  simp [mapLookup, List.find?]

theorem count_append_singleton (pref : List (List Char)) (b b2 : List Char) :
    (pref ++ [b]).count b2 = pref.count b2 + (if b2 = b then 1 else 0) := by
  rw [List.count_append]
  by_cases h : b2 = b
  · subst h
    simp [List.count_singleton]
  · simp only [List.count_singleton]
    rw [show (b == b2) = false from beq_eq_false_iff_ne.mpr (fun hh => h hh.symm)]
    simp [h]

theorem tocInv_step (m : List (List Char × Nat)) (pref : List (List Char)) (b : List Char)
    (hinv : TocInv m pref) :
    TocInv (mapSet m b (nextCount (mapLookup m b))) (pref ++ [b]) := by
  intro b2
  by_cases hb : b2 = b
  · subst hb
    rw [mapLookup_set_self, count_append_singleton, if_pos rfl]
    have h0 := hinv b2
    by_cases hc : pref.count b2 = 0
    · rw [hc]
      rw [hc, if_pos rfl] at h0
      rw [h0]
      simp [nextCount]
    · rw [if_neg hc] at h0
      rw [h0]
      simp only [nextCount, if_neg (by omega : ¬pref.count b2 + 1 = 0)]
      congr 1
      omega
  · rw [mapLookup_set_other _ _ _ _ hb, count_append_singleton, if_neg hb]
    simp only [Nat.add_zero]
    exact hinv b2

/-- The `(slug, final id)` pairs produced by the implementation agree with the
specification recursion, given the map invariant. -/
theorem generateTOCAux_spec_eq :
    ∀ (hs : List Heading) (m : List (List Char × Nat)) (pref : List (List Char)),
      TocInv m pref →
      (generateTOCAux m hs).map (fun t => t.2) =
        specOut pref (hs.map (fun h => (tocBase h, h.id))) := by
  intro hs
  induction hs with
  | nil => intro m pref _; rfl
  | cons h rest ih =>
    intro m pref hinv
    rw [generateTOCAux, List.map_cons, List.map_cons, specOut]
    have hb := hinv (tocBase h)
    have hemit : tocEmit (tocBase h) (mapLookup m (tocBase h)) =
        slugEmit (tocBase h) (pref.count (tocBase h)) := by
      by_cases hc : pref.count (tocBase h) = 0
      · rw [hc, if_pos rfl] at hb
        rw [hb, tocEmit, slugEmit, if_pos hc]
      · rw [if_neg hc] at hb
        rw [hb, tocEmit, slugEmit, if_neg hc]
        have hone : pref.count (tocBase h) - 1 + 1 = pref.count (tocBase h) := by omega
        rw [hone]
    rw [hemit]
    congr 1
    rw [ih (mapSet m (tocBase h) (nextCount (mapLookup m (tocBase h)))) (pref ++ [tocBase h])
      (tocInv_step m pref (tocBase h) hinv)]

theorem generateTOCAux_length (hs : List Heading) :
    ∀ m, (generateTOCAux m hs).length = hs.length := by
  induction hs with
  | nil => intro m; rfl
  | cons h rest ih =>
    intro m
    rw [generateTOCAux, List.length_cons, ih, List.length_cons]

theorem mem_specOut :
    ∀ (l : List (List Char × List Char)) (pref : List (List Char))
      (x : List Char × List Char), x ∈ specOut pref l →
      ∃ b i c, (b, i) ∈ l ∧ pref.count b ≤ c ∧
        x = (slugEmit b c, if i = [] then slugEmit b c else i) := by
  intro l
  induction l with
  | nil => intro pref x hx; cases hx
  | cons p rest ih =>
    intro pref x hx
    obtain ⟨b, i⟩ := p
    rw [specOut, List.mem_cons] at hx
    rcases hx with hx | hx
    · exact ⟨b, i, pref.count b, List.mem_cons_self _ _, le_rfl, hx⟩
    · obtain ⟨b2, i2, c2, hmem, hle, hx2⟩ := ih (pref ++ [b]) x hx
      refine ⟨b2, i2, c2, List.mem_cons_of_mem _ hmem, ?_, hx2⟩
      rw [count_append_singleton] at hle
      omega

theorem slugEmit_ne_of_lt (b : List Char) (c c2 : Nat) (h : c < c2) :
    slugEmit b c ≠ slugEmit b c2 := by
  intro heq
  rw [slugEmit, slugEmit, if_neg (by omega : ¬c2 = 0)] at heq
  by_cases hc : c = 0
  · rw [if_pos hc] at heq
    have hlen := congrArg List.length heq
    have hpos : 0 < (natChars c2).length := List.length_pos.mpr (natChars_ne_nil c2)
    simp only [List.length_append, List.length_cons] at hlen
    omega
  · rw [if_neg hc] at heq
    have h2 := List.append_cancel_left heq
    simp only [List.cons.injEq, true_and] at h2
    exact absurd (natChars_inj c c2 h2) (by omega)

theorem cross_suffix_aux (b b2 : List Char) (k k2 : Nat) (hl : b.length < b2.length) :
    b ++ '-' :: natChars k ≠ b2 ++ '-' :: natChars k2 := by
  intro heq
  have hd := congrArg (List.drop (b.length + 1)) heq
  have h1 : (b ++ '-' :: natChars k).drop (b.length + 1) = natChars k := by
    rw [show b ++ '-' :: natChars k = (b ++ ['-']) ++ natChars k by simp,
      show b.length + 1 = (b ++ ['-']).length by simp]
    exact List.drop_left _ _
  have h2 : (b2 ++ '-' :: natChars k2).drop (b.length + 1) =
      b2.drop (b.length + 1) ++ '-' :: natChars k2 := by
    rw [List.drop_append_eq_append_drop, show b.length + 1 - b2.length = 0 by omega,
      List.drop_zero]
  rw [h1, h2] at hd
  have hmem : '-' ∈ natChars k := by
    rw [hd]
    exact List.mem_append.mpr (Or.inr (List.mem_cons_self _ _))
  have := natChars_digits k '-' hmem
  have hv : ('-' : Char).toNat = 45 := by decide
  omega

theorem cross_suffix_ne (b b2 : List Char) (k k2 : Nat) (hne : b ≠ b2) :
    b ++ '-' :: natChars k ≠ b2 ++ '-' :: natChars k2 := by
  rcases lt_trichotomy b.length b2.length with hl | hl | hl
  · exact cross_suffix_aux b b2 k k2 hl
  · intro heq
    exact hne (List.append_inj heq hl).1
  · intro heq
    exact cross_suffix_aux b2 b k2 k hl heq.symm

theorem slugEmit_ne_of_crossFree (b i b2 i2 : List Char) (c c2 : Nat)
    (l : List (List Char × List Char)) (hcross : CrossFree l)
    (hp : (b, i) ∈ l) (hq : (b2, i2) ∈ l) (hne : b ≠ b2) :
    slugEmit b c ≠ slugEmit b2 c2 := by
  rw [slugEmit, slugEmit]
  by_cases hc : c = 0
  · by_cases hc2 : c2 = 0
    · rw [if_pos hc, if_pos hc2]; exact hne
    · rw [if_pos hc, if_neg hc2]
      exact hcross (b, i) hp (b2, i2) hq c2 (by omega)
  · by_cases hc2 : c2 = 0
    · rw [if_neg hc, if_pos hc2]
      intro heq
      exact hcross (b2, i2) hq (b, i) hp c (by omega) heq.symm
    · rw [if_neg hc, if_neg hc2]
      exact cross_suffix_ne b b2 c c2 hne

theorem crossFree_of_cons (p : List Char × List Char) (l : List (List Char × List Char))
    (h : CrossFree (p :: l)) : CrossFree l :=
  fun p2 hp q hq => h p2 (List.mem_cons_of_mem _ hp) q (List.mem_cons_of_mem _ hq)

theorem specOut_slugs_nodup :
    ∀ (l : List (List Char × List Char)) (pref : List (List Char)),
      CrossFree l → ((specOut pref l).map (fun t => t.1)).Nodup := by
  intro l
  induction l with
  | nil => intro pref _; exact List.nodup_nil
  | cons p rest ih =>
    intro pref hcross
    obtain ⟨b, i⟩ := p
    rw [specOut, List.map_cons, List.nodup_cons]
    refine ⟨?_, ih (pref ++ [b]) (crossFree_of_cons _ _ hcross)⟩
    intro hmem
    obtain ⟨x, hx, hfst⟩ := List.mem_map.mp hmem
    obtain ⟨b2, i2, c2, hmem2, hle2, hx2⟩ := mem_specOut rest (pref ++ [b]) x hx
    rw [hx2] at hfst
    simp only at hfst
    by_cases hbb : b2 = b
    · subst hbb
      rw [count_append_singleton, if_pos rfl] at hle2
      exact slugEmit_ne_of_lt b2 (pref.count b2) c2 (by omega) hfst.symm
    · exact slugEmit_ne_of_crossFree b2 i2 b i c2 (pref.count b) ((b, i) :: rest)
        hcross (List.mem_cons_of_mem _ hmem2) (List.mem_cons_self _ _) hbb hfst

theorem specOut_finals_nodup :
    ∀ (l : List (List Char × List Char)) (pref : List (List Char)),
      CrossFree l → (∀ p ∈ l, p.2 ≠ [] → p.1 = p.2) →
      List.Pairwise (fun p q => (p.2 ≠ [] ∨ q.2 ≠ []) → p.1 ≠ q.1) l →
      ((specOut pref l).map (fun t => t.2)).Nodup := by
  intro l
  induction l with
  | nil => intro pref _ _ _; exact List.nodup_nil
  | cons p rest ih =>
    intro pref hcross hid hpw
    obtain ⟨b, i⟩ := p
    obtain ⟨hrel, hpwrest⟩ := List.pairwise_cons.mp hpw
    rw [specOut, List.map_cons, List.nodup_cons]
    refine ⟨?_, ih (pref ++ [b]) (crossFree_of_cons _ _ hcross)
      (fun q hq => hid q (List.mem_cons_of_mem _ hq)) hpwrest⟩
    intro hmem
    obtain ⟨x, hx, hsnd⟩ := List.mem_map.mp hmem
    obtain ⟨b2, i2, c2, hmem2, hle2, hx2⟩ := mem_specOut rest (pref ++ [b]) x hx
    rw [hx2] at hsnd
    simp only at hsnd
    have hmem2l : (b2, i2) ∈ (b, i) :: rest := List.mem_cons_of_mem _ hmem2
    have hmem1l : (b, i) ∈ (b, i) :: rest := List.mem_cons_self _ _
    by_cases hi : i = []
    · rw [if_pos hi] at hsnd
      by_cases hi2 : i2 = []
      · rw [if_pos hi2] at hsnd
        by_cases hbb : b2 = b
        · subst hbb
          rw [count_append_singleton, if_pos rfl] at hle2
          exact slugEmit_ne_of_lt b2 (pref.count b2) c2 (by omega) hsnd.symm
        · exact slugEmit_ne_of_crossFree b2 i2 b i c2 (pref.count b) ((b, i) :: rest)
            hcross hmem2l hmem1l hbb hsnd
      · rw [if_neg hi2] at hsnd
        have hb2 : b2 = i2 := hid (b2, i2) hmem2l hi2
        have hne : b ≠ b2 := fun heq => hrel (b2, i2) hmem2 (Or.inr hi2) heq
        have : slugEmit b2 0 = slugEmit b (pref.count b) := by
          rw [slugEmit, if_pos rfl, hb2, hsnd]
        exact slugEmit_ne_of_crossFree b2 i2 b i 0 (pref.count b) ((b, i) :: rest)
          hcross hmem2l hmem1l (fun heq => hne heq.symm) this
    · rw [if_neg hi] at hsnd
      have hb1 : b = i := hid (b, i) hmem1l hi
      by_cases hi2 : i2 = []
      · rw [if_pos hi2] at hsnd
        have hne : b ≠ b2 := fun heq => hrel (b2, i2) hmem2 (Or.inl hi) heq
        have : slugEmit b2 c2 = slugEmit b 0 := by
          rw [show slugEmit b 0 = b from by rw [slugEmit, if_pos rfl], hb1]
          exact hsnd
        exact slugEmit_ne_of_crossFree b2 i2 b i c2 0 ((b, i) :: rest)
          hcross hmem2l hmem1l (fun heq => hne heq.symm) this
      · rw [if_neg hi2] at hsnd
        have hne : b ≠ b2 := fun heq => hrel (b2, i2) hmem2 (Or.inl hi) heq
        have hb2 : b2 = i2 := hid (b2, i2) hmem2l hi2
        exact hne (by rw [hb1, hb2, hsnd])

/-- C1 counterexample: the slugs generateTOC emits are not always pairwise distinct, and
neither are the heading ids after generation — headings "a", "a", "a 1" yield slugs
"a", "a-1", "a-1". -/
theorem generateTOC_slug_clash :
    ¬ ((generateTOCAux [] (nodeHeadings tocCexEl)).map (fun t => t.2.1)).Nodup ∧
    ¬ ((generateTOCAux [] (nodeHeadings tocCexEl)).map (fun t => t.2.2)).Nodup := by
  decide

/-- C1 (amended): `generateTOC` emits exactly one entry per heading, in document order;
under hypothesis H — no heading's base slug (existing id, else slugified text) equals
another heading's base with a `-n` suffix attached — the emitted slugs are pairwise
distinct; if moreover no id-bearing heading shares its base with any other heading, the
heading ids after generation are pairwise distinct.  Without H the claim fails:
`generateTOC_slug_clash`. -/
theorem generateTOC_unique (el : DNode)
    (hcross : CrossFree ((nodeHeadings el).map (fun h => (tocBase h, h.id)))) :
    (generateTOCAux [] (nodeHeadings el)).length = (nodeHeadings el).length ∧
    ((generateTOCAux [] (nodeHeadings el)).map (fun t => t.2.1)).Nodup ∧
    (List.Pairwise (fun h1 h2 => (h1.id ≠ [] ∨ h2.id ≠ []) → tocBase h1 ≠ tocBase h2)
        (nodeHeadings el) →
      ((generateTOCAux [] (nodeHeadings el)).map (fun t => t.2.2)).Nodup) := by
  have hmap := generateTOCAux_spec_eq (nodeHeadings el) [] [] tocInv_nil
  refine ⟨generateTOCAux_length _ _, ?_, ?_⟩
  · have h1 : (generateTOCAux [] (nodeHeadings el)).map (fun t => t.2.1) =
        ((generateTOCAux [] (nodeHeadings el)).map (fun t => t.2)).map (fun t => t.1) := by
      rw [List.map_map]
      rfl
    rw [h1, hmap]
    exact specOut_slugs_nodup _ [] hcross
  · intro hpw
    have h1 : (generateTOCAux [] (nodeHeadings el)).map (fun t => t.2.2) =
        ((generateTOCAux [] (nodeHeadings el)).map (fun t => t.2)).map (fun t => t.2) := by
      rw [List.map_map]
      rfl
    rw [h1, hmap]
    refine specOut_finals_nodup _ [] hcross ?_ ?_
    · intro p hp hne
      obtain ⟨h, _, rfl⟩ := List.mem_map.mp hp
      simp only at hne ⊢
      rw [tocBase, if_neg hne]
    · exact List.pairwise_map.mpr hpw

theorem generateTOC_unique_witness :
    (generateTOCAux [] (nodeHeadings tocWitnessEl)).length =
      (nodeHeadings tocWitnessEl).length ∧
    ((generateTOCAux [] (nodeHeadings tocWitnessEl)).map (fun t => t.2.1)).Nodup ∧
    (List.Pairwise (fun h1 h2 => (h1.id ≠ [] ∨ h2.id ≠ []) → tocBase h1 ≠ tocBase h2)
        (nodeHeadings tocWitnessEl) →
      ((generateTOCAux [] (nodeHeadings tocWitnessEl)).map (fun t => t.2.2)).Nodup) :=
  generateTOC_unique tocWitnessEl (by
    intro p hp q hq k hk heq
    have hall : ∀ r ∈ (nodeHeadings tocWitnessEl).map (fun h => (tocBase h, h.id)),
        r.1.length = 2 := by decide
    have hp2 := hall p hp
    have hq2 := hall q hq
    have hlen := congrArg List.length heq
    simp only [List.length_append, List.length_cons] at hlen
    have hkpos := List.length_pos.mpr (natChars_ne_nil k)
    omega)

example : stripBrackets "[12]".data = "12".data := by decide

example : stripBrackets "[[x]]".data = "[x]".data := by decide

example : stripBrackets "plain".data = "plain".data := by decide

example :
    footnoteLabels [("fn1".data, "[1]".data), ("fn2".data, "[1]".data),
      ("fn1".data, "[9]".data)] (fun _ => true) = ["1".data, "2".data] := by decide

theorem findUnusedAux_free :
    ∀ (fuel c : Nat) (used : List (List Char)),
      (∃ i, i < fuel ∧ natChars (c + i) ∉ used) →
      natChars (findUnusedAux fuel c used) ∉ used := by
  intro fuel
  induction fuel with
  | zero => intro c used h; obtain ⟨i, hi, _⟩ := h; omega
  | succ f ih =>
    intro c used h
    rw [findUnusedAux]
    by_cases hmem : natChars c ∈ used
    · rw [if_pos hmem]
      obtain ⟨i, hi, hfree⟩ := h
      have hi0 : i ≠ 0 := by
        intro h0
        rw [h0, Nat.add_zero] at hfree
        exact hfree hmem
      refine ih (c + 1) used ⟨i - 1, by omega, ?_⟩
      rw [show c + 1 + (i - 1) = c + i by omega]
      exact hfree
    · rw [if_neg hmem]
      exact hmem

theorem exists_free_counter (c : Nat) (used : List (List Char)) :
    ∃ i, i < used.length + 1 ∧ natChars (c + i) ∉ used := by
  by_contra h
  push_neg at h
  have hnd : ((List.range (used.length + 1)).map (fun i => natChars (c + i))).Nodup := by
    refine List.Nodup.map ?_ (List.nodup_range _)
    intro i j hij
    have := natChars_inj (c + i) (c + j) hij
    omega
  have hsub : ∀ x ∈ (List.range (used.length + 1)).map (fun i => natChars (c + i)),
      x ∈ used := by
    intro x hx
    obtain ⟨i, hi, rfl⟩ := List.mem_map.mp hx
    exact h i (List.mem_range.mp hi)
  have hcard : ((List.range (used.length + 1)).map (fun i => natChars (c + i))).toFinset.card ≤
      used.toFinset.card := by
    refine Finset.card_le_card ?_
    intro x hx
    rw [List.mem_toFinset] at hx ⊢
    exact hsub x hx
  rw [List.toFinset_card_of_nodup hnd] at hcard
  have h2 := List.toFinset_card_le used
  simp only [List.length_map, List.length_range] at hcard
  omega

theorem findUnused_free (used : List (List Char)) : natChars (findUnused used) ∉ used :=
  findUnusedAux_free _ _ _ (exists_free_counter (used.length + 1) used)

theorem registerFootnote_inv (st : FnState) (tid txt : List Char) (h : FnInv st) :
    FnInv (registerFootnote st tid txt) := by
  obtain ⟨hnd, hsub⟩ := h
  rw [registerFootnote]
  by_cases ht : tid = []
  · rw [if_pos ht]; exact ⟨hnd, hsub⟩
  rw [if_neg ht]
  cases hl : fnLookup st.idToLabel tid with
  | some v => exact ⟨hnd, hsub⟩
  | none =>
    simp only
    set raw := stripBrackets (jsTrim txt) with hraw
    set cand := if raw = [] ∨ raw ∈ st.used then natChars (findUnused st.used) else raw
      with hcand
    have hfresh : cand ∉ st.used := by
      rw [hcand]
      by_cases hc : raw = [] ∨ raw ∈ st.used
      · rw [if_pos hc]
        exact findUnused_free st.used
      · rw [if_neg hc]
        push_neg at hc
        exact hc.2
    constructor
    · rw [List.map_append, List.nodup_append]
      refine ⟨hnd, List.nodup_singleton _, ?_⟩
      intro a ha hb
      simp only [List.map_cons, List.map_nil, List.mem_singleton] at hb
      subst hb
      exact hfresh (hsub _ ha)
    · intro v hv
      rw [List.map_append] at hv
      rcases List.mem_append.mp hv with hv | hv
      · exact List.mem_cons_of_mem _ (hsub v hv)
      · simp only [List.map_cons, List.map_nil, List.mem_singleton] at hv
        subst hv
        exact List.mem_cons_self _ _

theorem convertFootnotesFold_inv :
    ∀ (refs : List (List Char × List Char)) (st : FnState),
      FnInv st → FnInv (refs.foldl (fun st r => registerFootnote st r.1 r.2) st) := by
  intro refs
  induction refs with
  | nil => intro st h; exact h
  | cons r rest ih =>
    intro st h
    rw [List.foldl_cons]
    exact ih _ (registerFootnote_inv st r.1 r.2 h)

/-- C6: within one convertFootnotes run the labels of the returned definition list are
pairwise distinct, and when the bracket-stripped trimmed reference text is empty or
already used, the newly registered label is an unused integer rendered in decimal. -/
theorem convertFootnotes_labels (refs : List (List Char × List Char))
    (hasHtml : List Char → Bool) (st : FnState) (tid txt : List Char)
    (hnew : fnLookup st.idToLabel tid = none) (htid : tid ≠ [])
    (hfb : stripBrackets (jsTrim txt) = [] ∨ stripBrackets (jsTrim txt) ∈ st.used) :
    (footnoteLabels refs hasHtml).Nodup ∧
    ∃ k, natChars k ∉ st.used ∧
      (registerFootnote st tid txt).idToLabel = st.idToLabel ++ [(tid, natChars k)] ∧
      (registerFootnote st tid txt).used = natChars k :: st.used := by
  constructor
  · have hinv : FnInv (convertFootnotesFold refs) :=
      convertFootnotesFold_inv refs ⟨[], []⟩ ⟨List.nodup_nil, by intro v hv; cases hv⟩
    rw [footnoteLabels]
    refine List.Nodup.sublist ?_ hinv.1
    exact List.Sublist.map _ (List.filter_sublist _)
  · refine ⟨findUnused st.used, findUnused_free st.used, ?_, ?_⟩
    · rw [registerFootnote, if_neg htid, hnew]
      simp only
      rw [if_pos hfb]
    · rw [registerFootnote, if_neg htid, hnew]
      simp only
      rw [if_pos hfb]

theorem convertFootnotes_labels_witness :
    (footnoteLabels [("fn1".data, "[1]".data), ("fn2".data, "[1]".data)]
        (fun _ => true)).Nodup ∧
    ∃ k, natChars k ∉ (⟨[], ["1".data]⟩ : FnState).used ∧
      (registerFootnote ⟨[], ["1".data]⟩ "fn9".data "[1]".data).idToLabel =
        (⟨[], ["1".data]⟩ : FnState).idToLabel ++ [("fn9".data, natChars k)] ∧
      (registerFootnote ⟨[], ["1".data]⟩ "fn9".data "[1]".data).used =
        natChars k :: (⟨[], ["1".data]⟩ : FnState).used :=
  convertFootnotes_labels [("fn1".data, "[1]".data), ("fn2".data, "[1]".data)]
    (fun _ => true) ⟨[], ["1".data]⟩ "fn9".data "[1]".data (by decide) (by decide)
    (by decide)

example : parseIntJS "500".data = some 500 := by decide

example : parseIntJS " 16px".data = some 16 := by decide

example : parseIntJS "-3".data = some (-3) := by decide

example : parseIntJS "auto".data = none := by decide

example : imgSmall [("width", "1".data), ("height", "1".data)] = true := by decide

example : imgSmall [("width", "500".data), ("height", "300".data)] = false := by decide

example : imgSmall [("width", "10".data)] = false := by decide

theorem getAttr_removeAttr_other (attrs : List (String × List Char)) (a n : String)
    (h : a ≠ n) : getAttr (removeAttr attrs a) n = getAttr attrs n := by
  induction attrs with
  | nil => rfl
  | cons p rest ih =>
    rw [removeAttr, List.filter_cons]
    by_cases hp : p.1 = a
    · rw [show (!(p.1 == a)) = false by simp [hp], if_neg (by simp)]
      rw [show getAttr (p :: rest) n = getAttr rest n from by
        rw [getAttr, List.find?_cons, show (p.1 == n) = false from
          beq_eq_false_iff_ne.mpr (by rw [hp]; exact h)]; rfl]
      exact ih
    · rw [show (!(p.1 == a)) = true by simp [hp], if_pos rfl]
      rw [getAttr, List.find?_cons, getAttr, List.find?_cons]
      cases hn : (p.1 == n)
      · simp only
        exact ih
      · rfl

theorem getAttr_setAttr_other (attrs : List (String × List Char)) (m n : String)
    (v : List Char) (h : m ≠ n) : getAttr (setAttr attrs m v) n = getAttr attrs n := by
  induction attrs with
  | nil =>
    rw [setAttr, getAttr, List.find?_cons,
      show (m == n) = false from beq_eq_false_iff_ne.mpr h]
    rfl
  | cons p rest ih =>
    rw [setAttr]
    by_cases hp : p.1 = m
    · rw [if_pos (by simp [hp])]
      rw [getAttr, List.find?_cons, getAttr, List.find?_cons]
      cases hn : (p.1 == n) with
      | false => rfl
      | true => exact absurd (hp.symm.trans (beq_iff_eq.mp hn)) h
    · rw [if_neg (by simp [hp])]
      rw [getAttr, List.find?_cons, getAttr, List.find?_cons]
      cases hn : (p.1 == n)
      · simp only
        exact ih
      · rfl

theorem getAttr_setAttr_self (attrs : List (String × List Char)) (m : String)
    (v : List Char) : getAttr (setAttr attrs m v) m = some v := by
  induction attrs with
  | nil =>
    rw [setAttr, getAttr, List.find?_cons, show (m == m) = true by simp]
    rfl
  | cons p rest ih =>
    rw [setAttr]
    by_cases hp : p.1 = m
    · rw [if_pos (by simp [hp])]
      rw [getAttr, List.find?_cons, show (p.1 == m) = true by simp [hp]]
      rfl
    · rw [if_neg (by simp [hp])]
      rw [getAttr, List.find?_cons, show (p.1 == m) = false by simp [hp]]
      simp only
      exact ih

theorem findLazyAttr_mem :
    ∀ (l : List String) (attrs : List (String × List Char)) (a : String) (v : List Char),
      findLazyAttr l attrs = some (a, v) → a ∈ l := by
  intro l
  induction l with
  | nil => intro attrs a v h; cases h
  | cons c rest ih =>
    intro attrs a v h
    rw [findLazyAttr] at h
    cases hc : getAttr attrs c with
    | some w =>
      rw [hc] at h
      simp only at h
      by_cases hcond : w ≠ [] ∧ ¬("data:".data.isPrefixOf w = true)
      · rw [if_pos hcond] at h
        injection h with h2
        injection h2 with h3 _
        exact h3 ▸ List.mem_cons_self _ _
      · rw [if_neg hcond] at h
        exact List.mem_cons_of_mem _ (ih attrs a v h)
    | none =>
      rw [hc] at h
      exact List.mem_cons_of_mem _ (ih attrs a v h)

theorem getAttr_resolveLazy_dim (res : List Char → Option (List Char)) (pt : String)
    (sib : List DNode) (attrs : List (String × List Char)) (n : String)
    (hn1 : n ≠ "src") (hn2 : n ∉ lazyAttrCandidates) :
    getAttr (resolveLazyImage res pt sib attrs) n = getAttr attrs n := by
  have key : ∀ (attrs1 : List (String × List Char)) (chosen : Option (List Char)),
      getAttr (match chosen with
        | some v => setAttr attrs1 "src" (match res v with | some a => a | none => v)
        | none => attrs1) n = getAttr attrs1 n := by
    intro attrs1 chosen
    cases chosen with
    | some v => exact getAttr_setAttr_other _ _ _ _ (fun he => hn1 he.symm)
    | none => rfl
  rw [resolveLazyImage]
  cases hf : findLazyAttr lazyAttrCandidates attrs with
  | some p =>
    obtain ⟨a, v⟩ := p
    have ha : a ∈ lazyAttrCandidates := findLazyAttr_mem _ attrs a v hf
    have han : a ≠ n := fun he => hn2 (he ▸ ha)
    refine Eq.trans ?_ (getAttr_removeAttr_other attrs a n han)
    exact key (removeAttr attrs a) (some v)
  | none =>
    exact key attrs
      (match firstSrcsetBest srcsetCandidateAttrs attrs with
        | some v => some v
        | none => if pt == "picture" then pictureBest (collectSourcesList sib) else none)

theorem imgSmall_congr (a1 a2 : List (String × List Char))
    (hw : getAttr a1 "width" = getAttr a2 "width")
    (hh : getAttr a1 "height" = getAttr a2 "height") : imgSmall a1 = imgSmall a2 := by
  rw [imgSmall, imgSmall, hw, hh]

theorem imgSmall_resolveLazy (res : List Char → Option (List Char)) (pt : String)
    (sib : List DNode) (attrs : List (String × List Char)) :
    imgSmall (resolveLazyImage res pt sib attrs) = imgSmall attrs :=
  imgSmall_congr _ _
    (getAttr_resolveLazy_dim res pt sib attrs "width" (by decide) (by decide))
    (getAttr_resolveLazy_dim res pt sib attrs "height" (by decide) (by decide))

/-- C7: in the image pass of cleanContent, an `img` is removed exactly when its
width/height attributes parse to explicit values with `0 < w < 32` and `0 < h < 32`
(lazy-source resolution never changes these attributes); a `width="1" height="1"` image
is removed, a `width="500" height="300"` one is kept, and a kept image whose resolved
attributes carry a `src` gets that src rewritten through the URL resolver. -/
theorem cleanContent_smallImage (res : List Char → Option (List Char)) (pt : String)
    (sib cs : List DNode) (attrs : List (String × List Char)) :
    (imagePassNode res pt sib (.elem "img" attrs cs) = [] ↔ imgSmall attrs = true) ∧
    imagePassNode res "div" []
      (.elem "img" [("width", "1".data), ("height", "1".data)] []) = [] ∧
    imagePassNode res "div" []
        (.elem "img" [("width", "500".data), ("height", "300".data),
          ("src", "/a.png".data)] []) =
      [.elem "img" [("width", "500".data), ("height", "300".data),
        ("src", match res "/a.png".data with | some a => a | none => "/a.png".data)] []] ∧
    (∀ s, imgSmall attrs = false →
      getAttr (resolveLazyImage res pt sib attrs) "src" = some s →
      imagePassNode res pt sib (.elem "img" attrs cs) =
        [.elem "img" (setAttr (resolveLazyImage res pt sib attrs) "src"
          (match res s with | some a => a | none => s)) (imagePassList res "img" cs cs)] ∧
      getAttr (setAttr (resolveLazyImage res pt sib attrs) "src"
          (match res s with | some a => a | none => s)) "src" =
        some (match res s with | some a => a | none => s)) := by
  have hunf : imagePassNode res pt sib (.elem "img" attrs cs) =
      (if imgSmall (resolveLazyImage res pt sib attrs) = true then [] else
        [.elem "img"
          (match getAttr (resolveLazyImage res pt sib attrs) "src" with
            | some s => setAttr (resolveLazyImage res pt sib attrs) "src"
                (match res s with | some a => a | none => s)
            | none => resolveLazyImage res pt sib attrs)
          (imagePassList res "img" cs cs)]) := rfl
  have h2 := imgSmall_resolveLazy res pt sib attrs
  refine ⟨?_, rfl, rfl, ?_⟩
  · rw [hunf, h2]
    by_cases hs : imgSmall attrs = true
    · rw [if_pos hs]
      simp [hs]
    · rw [if_neg hs]
      simp only [Bool.not_eq_true] at hs
      simp [hs]
  · intro s hsmall hsrc
    refine ⟨?_, getAttr_setAttr_self _ _ _⟩
    rw [hunf, if_neg (by rw [h2, hsmall]; exact Bool.false_ne_true), hsrc]

theorem cleanContent_smallImage_witness :
    imagePassNode (fun s => some s) "div" []
        (.elem "img" [("width", "1".data), ("height", "1".data)] []) = [] :=
  (cleanContent_smallImage (fun s => some s) "div" [] []
    [("width", "1".data), ("height", "1".data)]).2.1

theorem jsTrim_eq_nil_iff (l : List Char) :
    jsTrim l = [] ↔ ∀ x ∈ l, isJsWhitespace x = true := by
  rw [jsTrim, jsTrimEnd_eq_nil_iff]
  constructor
  · intro h x hx
    rcases List.mem_append.mp
        ((List.takeWhile_append_dropWhile (p := isJsWhitespace) (l := l)) ▸ hx) with h2 | h2
    · exact List.mem_takeWhile_imp h2
    · exact h x h2
  · intro h x hx
    exact h x (mem_of_mem_dropWhile _ _ _ hx)

example : isHidden [("style", "color:red; display: none".data)] = true := by decide

example : isHidden [("style", "display:block".data)] = false := by decide

example : isHidden [("aria-hidden", "true".data)] = true := by decide

theorem dnode_ind (P : DNode → Prop) (Q : List DNode → Prop)
    (htext : ∀ s, P (.text s))
    (helem : ∀ t attrs cs, Q cs → P (.elem t attrs cs))
    (hnil : Q [])
    (hcons : ∀ n ns, P n → Q ns → Q (n :: ns)) : ∀ n, P n :=
  fun n => @DNode.rec P Q htext helem hnil hcons n

theorem dnodeList_ind (P : DNode → Prop) (Q : List DNode → Prop)
    (htext : ∀ s, P (.text s))
    (helem : ∀ t attrs cs, Q cs → P (.elem t attrs cs))
    (hnil : Q [])
    (hcons : ∀ n ns, P n → Q ns → Q (n :: ns)) : ∀ ns, Q ns :=
  fun ns => @DNode.rec_1 P Q htext helem hnil hcons ns

/-- C3 counterexample: a div whose only child is a hidden span with text survives
cleanContent as an empty leaf — the snapshot pass checked the div before removing the
span and never revisits it. -/
theorem cleanContent_empty_leaf_remains :
    cleanContent [] (fun s => some s)
        (.elem "div" [] [.elem "div" []
          [.elem "span" [("style", "display:none".data)] [.text "x".data]]]) =
      .elem "div" [] [.elem "div" [] []] ∧
    allElemsList (fun t _ cs => mediaTag t || !(isEmptyElem cs))
      [.elem "div" [] []] = false :=
  ⟨rfl, rfl⟩

theorem hiddenPass_media (t : String) (a : List (String × List Char)) (cs : List DNode)
    (h : mediaTag t = true) :
    hiddenPass (.elem t a cs) = [.elem t a (hiddenPassList cs)] := by
  rw [hiddenPass, if_pos h]

theorem hiddenPass_hidden (t : String) (a : List (String × List Char)) (cs : List DNode)
    (hm : mediaTag t = false) (hh : isHidden a = true) :
    hiddenPass (.elem t a cs) = [] := by
  rw [hiddenPass, if_neg (by simp [hm]), if_pos hh]

theorem hiddenPass_empty (t : String) (a : List (String × List Char)) (cs : List DNode)
    (hm : mediaTag t = false) (hh : isHidden a = false) (he : isEmptyElem cs = true) :
    hiddenPass (.elem t a cs) = [] := by
  rw [hiddenPass, if_neg (by simp [hm]), if_neg (by simp [hh]), if_pos he]

theorem hiddenPass_kept (t : String) (a : List (String × List Char)) (cs : List DNode)
    (hm : mediaTag t = false) (hh : isHidden a = false) (he : isEmptyElem cs = false) :
    hiddenPass (.elem t a cs) = [.elem t a (hiddenPassList cs)] := by
  rw [hiddenPass, if_neg (by simp [hm]), if_neg (by simp [hh]), if_neg (by simp [he])]

theorem removeMatching_hit (p : String → List (String × List Char) → Bool) (t : String)
    (a : List (String × List Char)) (cs : List DNode) (h : p t a = true) :
    removeMatching p (.elem t a cs) = [] := by
  rw [removeMatching, if_pos h]

theorem removeMatching_keep (p : String → List (String × List Char) → Bool) (t : String)
    (a : List (String × List Char)) (cs : List DNode) (h : p t a = false) :
    removeMatching p (.elem t a cs) = [.elem t a (removeMatchingList p cs)] := by
  rw [removeMatching, if_neg (by simp [h])]

theorem imagePassNode_not_img (res : List Char → Option (List Char)) (pt t : String)
    (sib : List DNode) (a : List (String × List Char)) (cs : List DNode)
    (h : (t == "img") = false) :
    imagePassNode res pt sib (.elem t a cs) = [.elem t a (imagePassList res t cs cs)] := by
  rw [imagePassNode, if_neg (by simp [h])]

theorem imagePassNode_img_small (res : List Char → Option (List Char)) (pt : String)
    (sib : List DNode) (a : List (String × List Char)) (cs : List DNode)
    (h : imgSmall a = true) :
    imagePassNode res pt sib (.elem "img" a cs) = [] := by
  have hunf : imagePassNode res pt sib (.elem "img" a cs) =
      (if imgSmall (resolveLazyImage res pt sib a) = true then [] else
        [.elem "img"
          (match getAttr (resolveLazyImage res pt sib a) "src" with
            | some s => setAttr (resolveLazyImage res pt sib a) "src"
                (match res s with | some u => u | none => s)
            | none => resolveLazyImage res pt sib a)
          (imagePassList res "img" cs cs)]) := rfl
  rw [hunf, imgSmall_resolveLazy, if_pos h]

theorem imagePassNode_img_kept (res : List Char → Option (List Char)) (pt : String)
    (sib : List DNode) (a : List (String × List Char)) (cs : List DNode)
    (h : imgSmall a = false) :
    ∃ a2, imagePassNode res pt sib (.elem "img" a cs) =
      [.elem "img" a2 (imagePassList res "img" cs cs)] := by
  have hunf : imagePassNode res pt sib (.elem "img" a cs) =
      (if imgSmall (resolveLazyImage res pt sib a) = true then [] else
        [.elem "img"
          (match getAttr (resolveLazyImage res pt sib a) "src" with
            | some s => setAttr (resolveLazyImage res pt sib a) "src"
                (match res s with | some u => u | none => s)
            | none => resolveLazyImage res pt sib a)
          (imagePassList res "img" cs cs)]) := rfl
  refine ⟨(match getAttr (resolveLazyImage res pt sib a) "src" with
    | some s => setAttr (resolveLazyImage res pt sib a) "src"
        (match res s with | some u => u | none => s)
    | none => resolveLazyImage res pt sib a), ?_⟩
  rw [hunf, imgSmall_resolveLazy, if_neg (by simp [h])]

theorem hiddenPass_cases (t : String) (a : List (String × List Char)) (cs : List DNode) :
    (mediaTag t = true ∧ hiddenPass (.elem t a cs) = [.elem t a (hiddenPassList cs)]) ∨
    (mediaTag t = false ∧ isHidden a = true ∧ hiddenPass (.elem t a cs) = []) ∨
    (mediaTag t = false ∧ isHidden a = false ∧ isEmptyElem cs = true ∧
      hiddenPass (.elem t a cs) = []) ∨
    (mediaTag t = false ∧ isHidden a = false ∧ isEmptyElem cs = false ∧
      hiddenPass (.elem t a cs) = [.elem t a (hiddenPassList cs)]) := by
  by_cases hm : mediaTag t = true
  · exact Or.inl ⟨hm, hiddenPass_media t a cs hm⟩
  rw [Bool.not_eq_true] at hm
  by_cases hh : isHidden a = true
  · exact Or.inr (Or.inl ⟨hm, hh, hiddenPass_hidden t a cs hm hh⟩)
  rw [Bool.not_eq_true] at hh
  by_cases he : isEmptyElem cs = true
  · exact Or.inr (Or.inr (Or.inl ⟨hm, hh, he, hiddenPass_empty t a cs hm hh he⟩))
  rw [Bool.not_eq_true] at he
  exact Or.inr (Or.inr (Or.inr ⟨hm, hh, he, hiddenPass_kept t a cs hm hh he⟩))

theorem nodesText_append : ∀ l1 l2 : List DNode,
    nodesText (l1 ++ l2) = nodesText l1 ++ nodesText l2 := by
  intro l1
  induction l1 with
  | nil => intro l2; rfl
  | cons n rest ih =>
    intro l2
    rw [List.cons_append, nodesText, nodesText, ih, List.append_assoc]

theorem anyMediaList_append : ∀ l1 l2 : List DNode,
    anyMediaList (l1 ++ l2) = (anyMediaList l1 || anyMediaList l2) := by
  intro l1
  induction l1 with
  | nil => intro l2; rfl
  | cons n rest ih =>
    intro l2
    rw [List.cons_append, anyMediaList, anyMediaList, ih, Bool.or_assoc]

theorem allElemsList_append (f : String → List (String × List Char) → List DNode → Bool) :
    ∀ l1 l2 : List DNode,
    allElemsList f (l1 ++ l2) = (allElemsList f l1 && allElemsList f l2) := by
  intro l1
  induction l1 with
  | nil => intro l2; rfl
  | cons n rest ih =>
    intro l2
    rw [List.cons_append, allElemsList, allElemsList, ih, Bool.and_assoc]

theorem hiddenPass_preserves : ∀ ns : List DNode,
    allElemsList noHiddenCheck ns = true →
    anyMediaList (hiddenPassList ns) = anyMediaList ns ∧
    ((∀ x ∈ nodesText (hiddenPassList ns), isJsWhitespace x = true) →
      ∀ x ∈ nodesText ns, isJsWhitespace x = true) := by
  refine dnodeList_ind
    (fun n => allElems noHiddenCheck n = true →
      anyMediaList (hiddenPass n) = anyMedia n ∧
      ((∀ x ∈ nodesText (hiddenPass n), isJsWhitespace x = true) →
        ∀ x ∈ nodeText n, isJsWhitespace x = true))
    (fun ns => allElemsList noHiddenCheck ns = true →
      anyMediaList (hiddenPassList ns) = anyMediaList ns ∧
      ((∀ x ∈ nodesText (hiddenPassList ns), isJsWhitespace x = true) →
        ∀ x ∈ nodesText ns, isJsWhitespace x = true))
    ?_ ?_ ?_ ?_
  · intro s _
    constructor
    · rfl
    · intro h x hx
      refine h x ?_
      simp only [hiddenPass, nodesText, nodeText, List.append_nil]
      exact hx
  · intro t a cs ih hall
    rw [allElems, Bool.and_eq_true] at hall
    obtain ⟨hf, hcs⟩ := hall
    obtain ⟨ihm, ihws⟩ := ih hcs
    rcases hiddenPass_cases t a cs with ⟨hm, heq⟩ | ⟨hm, hh, heq⟩ |
      ⟨hm, hh, he, heq⟩ | ⟨hm, hh, he, heq⟩
    · rw [heq]
      constructor
      · simp only [anyMediaList, anyMedia, Bool.or_false]
        rw [ihm]
      · intro h x hx
        refine ihws ?_ x hx
        intro y hy
        refine h y ?_
        simp only [nodesText, nodeText, List.append_nil]
        exact hy
    · rw [noHiddenCheck, hm, hh] at hf
      simp at hf
    · rw [heq]
      rw [isEmptyElem, Bool.and_eq_true, beq_iff_eq, Bool.not_eq_true'] at he
      obtain ⟨hws0, hmedia0⟩ := he
      constructor
      · simp only [anyMediaList, anyMedia]
        rw [hmedia0]
        have h3 : (t == "img") = false ∧ (t == "video") = false ∧ (t == "audio") = false := by
          rw [mediaTag] at hm
          simp only [Bool.or_eq_false_iff] at hm
          exact ⟨hm.1.1.1.1, hm.1.1.1.2, hm.1.1.2⟩
        rw [h3.1, h3.2.1, h3.2.2]
        rfl
      · intro _ x hx
        rw [jsTrim_eq_nil_iff] at hws0
        exact hws0 x hx
    · rw [heq]
      constructor
      · simp only [anyMediaList, anyMedia, Bool.or_false]
        rw [ihm]
      · intro h x hx
        refine ihws ?_ x hx
        intro y hy
        refine h y ?_
        simp only [nodesText, nodeText, List.append_nil]
        exact hy
  · intro _
    exact ⟨rfl, fun _ x hx => absurd hx (List.not_mem_nil x)⟩
  · intro n ns ihn ihns hall
    rw [allElemsList, Bool.and_eq_true] at hall
    obtain ⟨h1, h2⟩ := hall
    obtain ⟨ihm1, ihws1⟩ := ihn h1
    obtain ⟨ihm2, ihws2⟩ := ihns h2
    rw [hiddenPassList]
    constructor
    · rw [anyMediaList_append, ihm1, ihm2]
      rfl
    · intro h x hx
      rw [nodesText] at hx
      have hsplit : ∀ y ∈ nodesText (hiddenPass n) ++ nodesText (hiddenPassList ns),
          isJsWhitespace y = true := by
        rw [← nodesText_append]
        exact h
      rcases List.mem_append.mp hx with hx | hx
      · exact ihws1 (fun y hy => hsplit y (List.mem_append.mpr (Or.inl hy))) x hx
      · exact ihws2 (fun y hy => hsplit y (List.mem_append.mpr (Or.inr hy))) x hx

theorem nodesText_hiddenPass_subset : ∀ ns : List DNode,
    ∀ x, x ∈ nodesText (hiddenPassList ns) → x ∈ nodesText ns := by
  refine dnodeList_ind
    (fun n => ∀ x, x ∈ nodesText (hiddenPass n) → x ∈ nodeText n)
    (fun ns => ∀ x, x ∈ nodesText (hiddenPassList ns) → x ∈ nodesText ns)
    ?_ ?_ ?_ ?_
  · intro s x hx
    simp only [hiddenPass, nodesText, nodeText, List.append_nil] at hx
    exact hx
  · intro t a cs ih x hx
    rcases hiddenPass_cases t a cs with ⟨_, heq⟩ | ⟨_, _, heq⟩ |
      ⟨_, _, _, heq⟩ | ⟨_, _, _, heq⟩ <;> rw [heq] at hx
    · simp only [nodesText, nodeText, List.append_nil] at hx
      exact ih x hx
    · cases hx
    · cases hx
    · simp only [nodesText, nodeText, List.append_nil] at hx
      exact ih x hx
  · intro x hx
    exact hx
  · intro n ns ihn ihns x hx
    rw [hiddenPassList, nodesText_append] at hx
    rw [nodesText]
    rcases List.mem_append.mp hx with hx | hx
    · exact List.mem_append.mpr (Or.inl (ihn x hx))
    · exact List.mem_append.mpr (Or.inr (ihns x hx))

theorem isEmptyElem_hiddenPass (cs : List DNode)
    (h : allElemsList noHiddenCheck cs = true) :
    isEmptyElem (hiddenPassList cs) = isEmptyElem cs := by
  obtain ⟨hm, hws⟩ := hiddenPass_preserves cs h
  rw [isEmptyElem, isEmptyElem, hm]
  have hiff : (jsTrim (nodesText (hiddenPassList cs)) = []) ↔
      (jsTrim (nodesText cs) = []) := by
    rw [jsTrim_eq_nil_iff, jsTrim_eq_nil_iff]
    constructor
    · exact hws
    · intro hall x hx
      exact hall x (nodesText_hiddenPass_subset cs x hx)
  by_cases hc : jsTrim (nodesText cs) = []
  · rw [show (jsTrim (nodesText cs) == ([] : List Char)) = true from beq_iff_eq.mpr hc,
      show (jsTrim (nodesText (hiddenPassList cs)) == ([] : List Char)) = true from
        beq_iff_eq.mpr (hiff.mpr hc)]
  · rw [show (jsTrim (nodesText cs) == ([] : List Char)) = false from
        beq_eq_false_iff_ne.mpr hc,
      show (jsTrim (nodesText (hiddenPassList cs)) == ([] : List Char)) = false from
        beq_eq_false_iff_ne.mpr (fun hh => hc (hiff.mp hh))]

theorem hiddenPass_noHidden : ∀ ns : List DNode,
    allElemsList noHiddenCheck (hiddenPassList ns) = true := by
  refine dnodeList_ind
    (fun n => allElemsList noHiddenCheck (hiddenPass n) = true)
    (fun ns => allElemsList noHiddenCheck (hiddenPassList ns) = true)
    ?_ ?_ ?_ ?_
  · intro s
    rfl
  · intro t a cs ih
    rcases hiddenPass_cases t a cs with ⟨hm, heq⟩ | ⟨_, _, heq⟩ |
      ⟨_, _, _, heq⟩ | ⟨_, hh, _, heq⟩ <;> rw [heq]
    · simp only [allElemsList, allElems, Bool.and_true, Bool.and_eq_true]
      refine ⟨?_, ih⟩
      rw [noHiddenCheck, hm]
      rfl
    · rfl
    · rfl
    · simp only [allElemsList, allElems, Bool.and_true, Bool.and_eq_true]
      refine ⟨?_, ih⟩
      rw [noHiddenCheck, hh]
      simp
  · rfl
  · intro n ns ihn ihns
    rw [hiddenPassList, allElemsList_append, ihn, ihns]
    rfl

theorem hiddenPass_noEmpty : ∀ ns : List DNode,
    allElemsList noHiddenCheck ns = true →
    allElemsList noEmptyCheck (hiddenPassList ns) = true := by
  refine dnodeList_ind
    (fun n => allElems noHiddenCheck n = true →
      allElemsList noEmptyCheck (hiddenPass n) = true)
    (fun ns => allElemsList noHiddenCheck ns = true →
      allElemsList noEmptyCheck (hiddenPassList ns) = true)
    ?_ ?_ ?_ ?_
  · intro s _
    rfl
  · intro t a cs ih hall
    rw [allElems, Bool.and_eq_true] at hall
    obtain ⟨hf, hcs⟩ := hall
    rcases hiddenPass_cases t a cs with ⟨hm, heq⟩ | ⟨hm, hh, heq⟩ |
      ⟨_, _, _, heq⟩ | ⟨hm, hh, he, heq⟩ <;> rw [heq]
    · simp only [allElemsList, allElems, Bool.and_true, Bool.and_eq_true]
      refine ⟨?_, ih hcs⟩
      rw [noEmptyCheck, hm]
      rfl
    · rw [noHiddenCheck, hm, hh] at hf
      simp at hf
    · rfl
    · simp only [allElemsList, allElems, Bool.and_true, Bool.and_eq_true]
      refine ⟨?_, ih hcs⟩
      rw [noEmptyCheck, isEmptyElem_hiddenPass cs hcs, he]
      simp
  · intro _
    rfl
  · intro n ns ihn ihns hall
    rw [allElemsList, Bool.and_eq_true] at hall
    rw [hiddenPassList, allElemsList_append, ihn hall.1, ihns hall.2]
    rfl

theorem imagePass_preserves (res : List Char → Option (List Char)) : ∀ ns : List DNode,
    ∀ pt sib, allElemsList noSmallImg ns = true →
    nodesText (imagePassList res pt sib ns) = nodesText ns ∧
    anyMediaList (imagePassList res pt sib ns) = anyMediaList ns := by
  refine dnodeList_ind
    (fun n => ∀ pt sib, allElems noSmallImg n = true →
      nodesText (imagePassNode res pt sib n) = nodeText n ∧
      anyMediaList (imagePassNode res pt sib n) = anyMedia n)
    (fun ns => ∀ pt sib, allElemsList noSmallImg ns = true →
      nodesText (imagePassList res pt sib ns) = nodesText ns ∧
      anyMediaList (imagePassList res pt sib ns) = anyMediaList ns)
    ?_ ?_ ?_ ?_
  · intro s pt sib _
    constructor
    · simp [imagePassNode, nodesText, nodeText]
    · rfl
  · intro t a cs ih pt sib hall
    rw [allElems, Bool.and_eq_true] at hall
    obtain ⟨hf, hcs⟩ := hall
    by_cases himg : (t == "img") = true
    · have ht : t = "img" := beq_iff_eq.mp himg
      subst ht
      rw [noSmallImg, Bool.not_eq_eq_eq_not, Bool.not_true, Bool.and_eq_false_iff] at hf
      have hsmall : imgSmall a = false := by
        rcases hf with hf | hf
        · simp at hf
        · exact hf
      obtain ⟨a2, heq⟩ := imagePassNode_img_kept res pt sib a cs hsmall
      rw [heq]
      obtain ⟨iht, ihm⟩ := ih "img" cs hcs
      constructor
      · simp only [nodesText, nodeText, List.append_nil]
        exact iht
      · simp only [anyMediaList, anyMedia, Bool.or_false]
        rfl
    · rw [Bool.not_eq_true] at himg
      rw [imagePassNode_not_img res pt t sib a cs himg]
      obtain ⟨iht, ihm⟩ := ih t cs hcs
      constructor
      · simp only [nodesText, nodeText, List.append_nil]
        exact iht
      · simp only [anyMediaList, anyMedia, Bool.or_false]
        rw [ihm]
  · intro pt sib _
    exact ⟨rfl, rfl⟩
  · intro n ns ihn ihns pt sib hall
    rw [allElemsList, Bool.and_eq_true] at hall
    obtain ⟨ih1t, ih1m⟩ := ihn pt sib hall.1
    obtain ⟨ih2t, ih2m⟩ := ihns pt sib hall.2
    rw [imagePassList]
    constructor
    · rw [nodesText_append, ih1t, ih2t, nodesText]
    · rw [anyMediaList_append, ih1m, ih2m, anyMediaList]

theorem imagePass_noEmpty (res : List Char → Option (List Char)) : ∀ ns : List DNode,
    ∀ pt sib, allElemsList noSmallImg ns = true →
    allElemsList noEmptyCheck ns = true →
    allElemsList noEmptyCheck (imagePassList res pt sib ns) = true := by
  refine dnodeList_ind
    (fun n => ∀ pt sib, allElems noSmallImg n = true → allElems noEmptyCheck n = true →
      allElemsList noEmptyCheck (imagePassNode res pt sib n) = true)
    (fun ns => ∀ pt sib, allElemsList noSmallImg ns = true →
      allElemsList noEmptyCheck ns = true →
      allElemsList noEmptyCheck (imagePassList res pt sib ns) = true)
    ?_ ?_ ?_ ?_
  · intro s pt sib _ _
    rfl
  · intro t a cs ih pt sib hs he
    rw [allElems, Bool.and_eq_true] at hs he
    obtain ⟨hf, hcs⟩ := hs
    obtain ⟨hef, hecs⟩ := he
    by_cases himg : (t == "img") = true
    · have ht : t = "img" := beq_iff_eq.mp himg
      subst ht
      rw [noSmallImg, Bool.not_eq_eq_eq_not, Bool.not_true, Bool.and_eq_false_iff] at hf
      have hsmall : imgSmall a = false := by
        rcases hf with hf | hf
        · simp at hf
        · exact hf
      obtain ⟨a2, heq⟩ := imagePassNode_img_kept res pt sib a cs hsmall
      rw [heq]
      simp only [allElemsList, allElems, Bool.and_true, Bool.and_eq_true]
      refine ⟨?_, ih "img" cs hcs hecs⟩
      rw [noEmptyCheck]
      rfl
    · rw [Bool.not_eq_true] at himg
      rw [imagePassNode_not_img res pt t sib a cs himg]
      simp only [allElemsList, allElems, Bool.and_true, Bool.and_eq_true]
      refine ⟨?_, ih t cs hcs hecs⟩
      rw [noEmptyCheck] at hef ⊢
      rcases Bool.or_eq_true_iff.mp hef with hm | hne
      · rw [hm]
        rfl
      · rw [Bool.not_eq_true'] at hne
        rw [isEmptyElem, ← (imagePass_preserves res cs t cs hcs).1,
          ← (imagePass_preserves res cs t cs hcs).2, ← isEmptyElem] at hne
        rw [hne]
        simp
  · intro pt sib _ _
    rfl
  · intro n ns ihn ihns pt sib hs he
    rw [allElemsList, Bool.and_eq_true] at hs he
    rw [imagePassList, allElemsList_append, ihn pt sib hs.1 he.1, ihns pt sib hs.2 he.2]
    rfl

theorem imagePass_attrPred (res : List Char → Option (List Char))
    (f : String → List (String × List Char) → Bool)
    (himg : ∀ a1 a2, f "img" a1 = f "img" a2) : ∀ ns : List DNode, ∀ pt sib,
    allElemsList (fun t a _ => f t a) ns = true →
    allElemsList (fun t a _ => f t a) (imagePassList res pt sib ns) = true := by
  refine dnodeList_ind
    (fun n => ∀ pt sib, allElems (fun t a _ => f t a) n = true →
      allElemsList (fun t a _ => f t a) (imagePassNode res pt sib n) = true)
    (fun ns => ∀ pt sib, allElemsList (fun t a _ => f t a) ns = true →
      allElemsList (fun t a _ => f t a) (imagePassList res pt sib ns) = true)
    ?_ ?_ ?_ ?_
  · intro s pt sib _
    rfl
  · intro t a cs ih pt sib hall
    rw [allElems, Bool.and_eq_true] at hall
    obtain ⟨hf, hcs⟩ := hall
    by_cases himgT : (t == "img") = true
    · have ht : t = "img" := beq_iff_eq.mp himgT
      subst ht
      by_cases hsmall : imgSmall a = true
      · rw [imagePassNode_img_small res pt sib a cs hsmall]
        rfl
      · rw [Bool.not_eq_true] at hsmall
        obtain ⟨a2, heq⟩ := imagePassNode_img_kept res pt sib a cs hsmall
        rw [heq]
        simp only [allElemsList, allElems, Bool.and_true, Bool.and_eq_true]
        exact ⟨(himg a2 a).trans hf, ih "img" cs hcs⟩
    · rw [Bool.not_eq_true] at himgT
      rw [imagePassNode_not_img res pt t sib a cs himgT]
      simp only [allElemsList, allElems, Bool.and_true, Bool.and_eq_true]
      exact ⟨hf, ih t cs hcs⟩
  · intro pt sib _
    rfl
  · intro n ns ihn ihns pt sib hall
    rw [allElemsList, Bool.and_eq_true] at hall
    rw [imagePassList, allElemsList_append, ihn pt sib hall.1, ihns pt sib hall.2]
    rfl

theorem hiddenPass_attrPred (f : String → List (String × List Char) → Bool) :
    ∀ ns : List DNode, allElemsList (fun t a _ => f t a) ns = true →
    allElemsList (fun t a _ => f t a) (hiddenPassList ns) = true := by
  refine dnodeList_ind
    (fun n => allElems (fun t a _ => f t a) n = true →
      allElemsList (fun t a _ => f t a) (hiddenPass n) = true)
    (fun ns => allElemsList (fun t a _ => f t a) ns = true →
      allElemsList (fun t a _ => f t a) (hiddenPassList ns) = true)
    ?_ ?_ ?_ ?_
  · intro s _
    rfl
  · intro t a cs ih hall
    rw [allElems, Bool.and_eq_true] at hall
    rcases hiddenPass_cases t a cs with ⟨_, heq⟩ | ⟨_, _, heq⟩ |
      ⟨_, _, _, heq⟩ | ⟨_, _, _, heq⟩ <;> rw [heq]
    · simp only [allElemsList, allElems, Bool.and_true, Bool.and_eq_true]
      exact ⟨hall.1, ih hall.2⟩
    · rfl
    · rfl
    · simp only [allElemsList, allElems, Bool.and_true, Bool.and_eq_true]
      exact ⟨hall.1, ih hall.2⟩
  · intro _
    rfl
  · intro n ns ihn ihns hall
    rw [allElemsList, Bool.and_eq_true] at hall
    rw [hiddenPassList, allElemsList_append, ihn hall.1, ihns hall.2]
    rfl

theorem removeMatching_attrPred (f : String → List (String × List Char) → Bool)
    (q : String → List (String × List Char) → Bool) :
    ∀ ns : List DNode, allElemsList (fun t a _ => f t a) ns = true →
    allElemsList (fun t a _ => f t a) (removeMatchingList q ns) = true := by
  refine dnodeList_ind
    (fun n => allElems (fun t a _ => f t a) n = true →
      allElemsList (fun t a _ => f t a) (removeMatching q n) = true)
    (fun ns => allElemsList (fun t a _ => f t a) ns = true →
      allElemsList (fun t a _ => f t a) (removeMatchingList q ns) = true)
    ?_ ?_ ?_ ?_
  · intro s _
    rfl
  · intro t a cs ih hall
    rw [allElems, Bool.and_eq_true] at hall
    by_cases hq : q t a = true
    · rw [removeMatching_hit q t a cs hq]
      rfl
    · rw [Bool.not_eq_true] at hq
      rw [removeMatching_keep q t a cs hq]
      simp only [allElemsList, allElems, Bool.and_true, Bool.and_eq_true]
      exact ⟨hall.1, ih hall.2⟩
  · intro _
    rfl
  · intro n ns ihn ihns hall
    rw [allElemsList, Bool.and_eq_true] at hall
    rw [removeMatchingList, allElemsList_append, ihn hall.1, ihns hall.2]
    rfl

theorem removeMatching_clears (p : String → List (String × List Char) → Bool) :
    ∀ ns : List DNode,
    allElemsList (fun t a _ => !(p t a)) (removeMatchingList p ns) = true := by
  refine dnodeList_ind
    (fun n => allElemsList (fun t a _ => !(p t a)) (removeMatching p n) = true)
    (fun ns => allElemsList (fun t a _ => !(p t a)) (removeMatchingList p ns) = true)
    ?_ ?_ ?_ ?_
  · intro s
    rfl
  · intro t a cs ih
    by_cases hq : p t a = true
    · rw [removeMatching_hit p t a cs hq]
      rfl
    · rw [Bool.not_eq_true] at hq
      rw [removeMatching_keep p t a cs hq]
      simp only [allElemsList, allElems, Bool.and_true, Bool.and_eq_true]
      refine ⟨?_, ih⟩
      rw [hq]
      rfl
  · rfl
  · intro n ns ihn ihns
    rw [removeMatchingList, allElemsList_append, ihn, ihns]
    rfl

theorem cleanPass1_preserve (f : String → List (String × List Char) → Bool) :
    ∀ (sels : List (String → List (String × List Char) → Bool)) (ns : List DNode),
    allElemsList (fun t a _ => f t a) ns = true →
    allElemsList (fun t a _ => f t a) (cleanPass1 sels ns) = true := by
  intro sels
  induction sels with
  | nil => intro ns h; exact h
  | cons q rest ih =>
    intro ns h
    rw [cleanPass1, List.foldl_cons]
    exact ih (removeMatchingList q ns) (removeMatching_attrPred f q ns h)

theorem cleanPass1_clears :
    ∀ (sels : List (String → List (String × List Char) → Bool))
      (p : String → List (String × List Char) → Bool), p ∈ sels →
    ∀ ns : List DNode,
    allElemsList (fun t a _ => !(p t a)) (cleanPass1 sels ns) = true := by
  intro sels
  induction sels with
  | nil => intro p hp; cases hp
  | cons q rest ih =>
    intro p hp ns
    rw [cleanPass1, List.foldl_cons]
    rcases List.mem_cons.mp hp with hp | hp
    · subst hp
      exact cleanPass1_preserve _ rest _ (removeMatching_clears p ns)
    · exact ih p hp (removeMatchingList q ns)

/-- C3 (amended): after `cleanContent`, (1) no element matches any removal selector,
provided no selector distinguishes `img` elements by their attributes (the image pass
rewrites those); (2) unconditionally, no remaining non-media element is hidden; (3) no
remaining non-media element is an empty leaf *provided* the selector pass left no hidden
element and the hidden/empty pass left no small image — without these hypotheses a
removal later in the walk can strand an already-visited, newly-empty ancestor, see
`cleanContent_empty_leaf_remains`. -/
theorem cleanContent_clean (sels : List (String → List (String × List Char) → Bool))
    (res : List Char → Option (List Char)) (t : String)
    (attrs : List (String × List Char)) (cs : List DNode) (out : List DNode)
    (hout : cleanContent sels res (.elem t attrs cs) = .elem t attrs out)
    (hsel : ∀ p ∈ sels, ∀ a1 a2, p "img" a1 = p "img" a2) :
    (∀ p ∈ sels, allElemsList (fun tg a _ => !(p tg a)) out = true) ∧
    allElemsList noHiddenCheck out = true ∧
    (allElemsList noHiddenCheck (cleanPass1 sels cs) = true →
      allElemsList noSmallImg (hiddenPassList (cleanPass1 sels cs)) = true →
      allElemsList noEmptyCheck out = true) := by
  have h0 : cleanContent sels res (.elem t attrs cs) =
      .elem t attrs (imagePassList res t (hiddenPassList (cleanPass1 sels cs))
        (hiddenPassList (cleanPass1 sels cs))) := rfl
  have hout2 : out = imagePassList res t (hiddenPassList (cleanPass1 sels cs))
      (hiddenPassList (cleanPass1 sels cs)) := by
    have h1 := h0.symm.trans hout
    injection h1 with _ _ h3
    exact h3.symm
  subst hout2
  refine ⟨?_, ?_, ?_⟩
  · intro p hp
    refine imagePass_attrPred res (fun tg a => !(p tg a))
      (fun a1 a2 => congrArg (fun b => !b) (hsel p hp a1 a2)) _ t _ ?_
    exact hiddenPass_attrPred (fun tg a => !(p tg a)) _ (cleanPass1_clears sels p hp cs)
  · exact imagePass_attrPred res (fun tg a => mediaTag tg || !(isHidden a))
      (fun a1 a2 => rfl) _ t _ (hiddenPass_noHidden (cleanPass1 sels cs))
  · intro h1 h2
    exact imagePass_noEmpty res _ t _ h2 (hiddenPass_noEmpty (cleanPass1 sels cs) h1)

theorem cleanContent_clean_witness :
    (∀ p ∈ [fun (tg : String) (_ : List (String × List Char)) => tg == "script"],
      allElemsList (fun tg a _ => !(p tg a)) [.elem "p" [] [.text "hi".data]] = true) ∧
    allElemsList noHiddenCheck [.elem "p" [] [.text "hi".data]] = true ∧
    (allElemsList noHiddenCheck
        (cleanPass1 [fun (tg : String) (_ : List (String × List Char)) => tg == "script"]
          [.elem "script" [] [.text "x".data], .elem "p" [] [.text "hi".data]]) = true →
      allElemsList noSmallImg
        (hiddenPassList
          (cleanPass1 [fun (tg : String) (_ : List (String × List Char)) => tg == "script"]
            [.elem "script" [] [.text "x".data],
              .elem "p" [] [.text "hi".data]])) = true →
      allElemsList noEmptyCheck [.elem "p" [] [.text "hi".data]] = true) :=
  cleanContent_clean
    [fun (tg : String) (_ : List (String × List Char)) => tg == "script"]
    (fun s => some s) "div" []
    [.elem "script" [] [.text "x".data], .elem "p" [] [.text "hi".data]]
    [.elem "p" [] [.text "hi".data]] rfl
    (by
      intro p hp a1 a2
      rw [List.mem_singleton] at hp
      subst hp
      rfl)

theorem inode_ind (P : INode → Prop) (Q : List INode → Prop)
    (htext : ∀ i s, P (.text i s))
    (helem : ∀ i t cs, Q cs → P (.elem i t cs))
    (hnil : Q [])
    (hcons : ∀ n ns, P n → Q ns → Q (n :: ns)) : ∀ n, P n :=
  fun n => @INode.rec P Q htext helem hnil hcons n

theorem iIds_shift (k : Nat) : ∀ n : INode, ∀ i ∈ iIds (shiftIds k n), k ≤ i := by
  refine inode_ind (fun n => ∀ i ∈ iIds (shiftIds k n), k ≤ i)
    (fun ns => ∀ i ∈ iIdsList (shiftIdsList k ns), k ≤ i) ?_ ?_ ?_ ?_
  · intro j s i hi
    rw [shiftIds, iIds, List.mem_singleton] at hi
    omega
  · intro j t cs ih i hi
    rw [shiftIds, iIds, List.mem_cons] at hi
    rcases hi with hi | hi
    · omega
    · exact ih i hi
  · intro i hi
    cases hi
  · intro n ns ihn ihns i hi
    rw [shiftIdsList, iIdsList] at hi
    rcases List.mem_append.mp hi with hi | hi
    · exact ihn i hi
    · exact ihns i hi

theorem isElem_shift (k : Nat) (n : INode) (h : isElem n = true) :
    isElem (shiftIds k n) = true := by
  cases n with
  | text i s => cases h
  | elem i t cs => rfl

/-- C5: getMainElement always yields an element (given that querySelector yields
elements), no node of the result is node-identical to any node of the live document,
and when readability yields no content the result is precisely the clone of the first
hit in the fallback chain: configured selector (default `'main'`), then
`'article, main'`, then the body. -/
theorem getMainElement_spec (readability : Option (List Char))
    (qsel : List Char → Option INode) (configs : List (List Char × List Char))
    (hostname : List Char) (body : INode) (freshId : Nat) (docIds : List Nat)
    (hf : ∀ i ∈ docIds, i < freshId)
    (hqe : ∀ s n, qsel s = some n → isElem n = true)
    (hbe : isElem body = true) :
    (∀ i ∈ iIds (getMainElement readability qsel configs hostname body freshId),
      i ∉ docIds) ∧
    isElem (getMainElement readability qsel configs hostname body freshId) = true ∧
    (readability = none →
      ∃ n, ((qsel (selectorOf configs hostname) = some n) ∨
          (qsel (selectorOf configs hostname) = none ∧
            qsel "article, main".data = some n) ∨
          (qsel (selectorOf configs hostname) = none ∧
            qsel "article, main".data = none ∧ n = body)) ∧
        getMainElement readability qsel configs hostname body freshId =
          shiftIds freshId n) := by
  cases readability with
  | some content =>
    refine ⟨?_, rfl, ?_⟩
    · intro i hi hidoc
      have hlt := hf i hidoc
      have hi2 : i = freshId ∨ i = freshId + 1 := by
        simpa [getMainElement, iIds, iIdsList] using hi
      rcases hi2 with rfl | rfl <;> omega
    · intro h
      cases h
  | none =>
    have hshift : ∀ m : INode, ∀ i ∈ iIds (shiftIds freshId m), i ∉ docIds := by
      intro m i hi hidoc
      have h1 := iIds_shift freshId m i hi
      have h2 := hf i hidoc
      omega
    rw [getMainElement]
    cases h1 : qsel (selectorOf configs hostname) with
    | some el =>
      exact ⟨hshift el, isElem_shift _ _ (hqe _ el h1), fun _ => ⟨el, Or.inl rfl, rfl⟩⟩
    | none =>
      cases h2 : qsel "article, main".data with
      | some el =>
        exact ⟨hshift el, isElem_shift _ _ (hqe _ el h2),
          fun _ => ⟨el, Or.inr (Or.inl ⟨rfl, rfl⟩), rfl⟩⟩
      | none =>
        exact ⟨hshift body, isElem_shift _ _ hbe,
          fun _ => ⟨body, Or.inr (Or.inr ⟨rfl, rfl, rfl⟩), rfl⟩⟩

theorem getMainElement_spec_witness :
    (∀ i ∈ iIds (getMainElement none
        (fun s => if s = "main".data then some (.elem 2 "main" []) else none)
        [] "x".data (.elem 1 "body" []) 10), i ∉ [0, 1, 2]) ∧
    isElem (getMainElement none
        (fun s => if s = "main".data then some (.elem 2 "main" []) else none)
        [] "x".data (.elem 1 "body" []) 10) = true ∧
    ((none : Option (List Char)) = none →
      ∃ n, ((if "main".data = "main".data then some (INode.elem 2 "main" []) else none) = some n ∨
          ((if "main".data = "main".data then some (INode.elem 2 "main" []) else none) = none ∧
            (if "article, main".data = "main".data then some (INode.elem 2 "main" []) else none) =
              some n) ∨
          ((if "main".data = "main".data then some (INode.elem 2 "main" []) else none) = none ∧
            (if "article, main".data = "main".data then some (INode.elem 2 "main" []) else none) =
              none ∧ n = .elem 1 "body" [])) ∧
        getMainElement none
          (fun s => if s = "main".data then some (.elem 2 "main" []) else none)
          [] "x".data (.elem 1 "body" []) 10 = shiftIds 10 n) := by
  have h := getMainElement_spec none
    (fun s => if s = "main".data then some (.elem 2 "main" []) else none)
    [] "x".data (.elem 1 "body" []) 10 [0, 1, 2]
    (by decide)
    (by
      intro s n hs
      have hs2 : (if s = "main".data then some (INode.elem 2 "main" []) else none) =
          some n := hs
      by_cases hm : s = "main".data
      · rw [if_pos hm] at hs2
        injection hs2 with hn
        rw [← hn]
        rfl
      · rw [if_neg hm] at hs2
        cases hs2)
    rfl
  exact h
